import Mathlib

/-!
# Verification of the lox-rs compiler and virtual machine

Shallow embedding of the parts of the `lox-rs` repository that the
specification's claims are about, together with proofs (or refutations)
of those claims.

Each Rust data structure is modelled as a Lean structure whose operations
are translated directly from the Rust source:

* `Bytecode.Chunk` — `crates/lox-bytecode/src/bytecode.rs`
* `ValueModel.Value` — `crates/lox-vm/src/value.rs` (NaN-boxed values)
* `LocalsModel.Locals` — `crates/lox-compiler/src/bettercompiler/locals.rs`
* `CompilerModel` — `crates/lox-compiler/src/bettercompiler/compiler.rs`
* `InternerModel.Interner` — `crates/lox-vm/src/interner.rs`
* `TableModel.Table` — `crates/lox-vm/src/table.rs`
* `GcModel.ManagedHeap` — `crates/lox-gc/src/gc.rs`
* `ReplModel` — `src/main.rs` (`run_repl`)

Machine integers are modelled as `Nat`/`Int` with explicit wrap-around
where the Rust code can overflow; fallible operations return `Option`.
-/

namespace Bytecode

/-- A chunk is an append-only byte vector
(`Chunk { instructions: Vec<u8> }` in `bytecode.rs`).
Bytes are `Nat`s kept below 256 by construction. -/
structure Chunk where
  instructions : List Nat
deriving Repr, DecidableEq

/-- `Chunk::new` -/
def Chunk.new : Chunk := ⟨[]⟩

/-- `Chunk::add_u8`: push one byte, return its index. -/
def Chunk.add_u8 (c : Chunk) (value : Nat) : Chunk × Nat :=
  (⟨c.instructions ++ [value % 256]⟩, c.instructions.length)

/-- `Chunk::instruction_index`: the current length of the byte vector. -/
def Chunk.instruction_index (c : Chunk) : Nat :=
  c.instructions.length

/-- The two's-complement little-endian bytes of an `i16`
(`i16::to_le_bytes`); the value is reduced into `[0, 2^16)` first. -/
def i16ToLeBytes (value : Int) : Nat × Nat :=
  ((value % 65536).toNat % 256, (value % 65536).toNat / 256)

/-- `Chunk::add_i16`: append the two little-endian bytes of a
signed 16-bit value, return the index of the first byte. -/
def Chunk.add_i16 (c : Chunk) (value : Int) : Chunk × Nat :=
  (⟨c.instructions ++ [(i16ToLeBytes value).1, (i16ToLeBytes value).2]⟩,
    c.instructions.length)

/-- `Chunk::set_i16`: overwrite the two bytes at `index, index+1`
with the little-endian encoding of `value`.  (The Rust code panics when
`index + 2` is out of bounds; `List.set` leaves the list unchanged
there, and every theorem about `set_i16` carries an in-bounds
hypothesis.) -/
def Chunk.set_i16 (c : Chunk) (index : Nat) (value : Int) : Chunk :=
  ⟨(c.instructions.set index (i16ToLeBytes value).1).set (index + 1)
    (i16ToLeBytes value).2⟩

/-- `Chunk::patch_instruction_to`: store `to - index - 2` as a signed
16-bit little-endian offset at `index, index+1`.  (The Rust code
computes `(to as isize) - (index as isize) - 2` and wraps it with
`as i16`; reduction modulo `2^16` inside `set_i16` models the wrap.) -/
def Chunk.patch_instruction_to (c : Chunk) (index tgt : Nat) : Chunk :=
  c.set_i16 index ((tgt : Int) - (index : Int) - 2)

/-- `Chunk::patch_instruction`: patch to the current end of the chunk. -/
def Chunk.patch_instruction (c : Chunk) (index : Nat) : Chunk :=
  c.patch_instruction_to index c.instruction_index

/-- Decode a little-endian signed 16-bit quantity from two bytes. -/
def decodeI16 (lo hi : Nat) : Int :=
  if lo % 256 + 256 * (hi % 256) < 32768 then ((lo % 256 + 256 * (hi % 256) : Nat) : Int)
  else ((lo % 256 + 256 * (hi % 256) : Nat) : Int) - 65536

theorem i16_roundtrip (v : Int) (h0 : -32768 ≤ v) (h1 : v < 32768) :
    decodeI16 (i16ToLeBytes v).1 (i16ToLeBytes v).2 = v := by
  unfold decodeI16 i16ToLeBytes
  set u := (v % 65536).toNat with hu
  have h3 : u % 256 % 256 + 256 * (u / 256 % 256) = u := by omega
  simp only [h3]
  split_ifs with h
  · omega
  · omega

theorem length_set_i16 (c : Chunk) (index : Nat) (v : Int) :
    (c.set_i16 index v).instructions.length = c.instructions.length := by
  simp [Chunk.set_i16]

theorem getD_set_i16_lo (c : Chunk) (index : Nat) (v : Int)
    (h : index + 1 < c.instructions.length) :
    (c.set_i16 index v).instructions.getD index 0 = (i16ToLeBytes v).1 := by
  simp only [Chunk.set_i16, List.getD, List.get?_eq_getElem?]
  rw [List.getElem?_set_ne (by omega)]
  rw [List.getElem?_set_eq_of_lt _ (by omega)]
  rfl

theorem getD_set_i16_hi (c : Chunk) (index : Nat) (v : Int)
    (h : index + 1 < c.instructions.length) :
    (c.set_i16 index v).instructions.getD (index + 1) 0 = (i16ToLeBytes v).2 := by
  simp only [Chunk.set_i16, List.getD, List.get?_eq_getElem?]
  rw [List.getElem?_set_eq_of_lt _ (by simpa using h)]
  rfl

theorem getD_set_i16_other (c : Chunk) (index : Nat) (v : Int) (i : Nat)
    (h1 : i ≠ index) (h2 : i ≠ index + 1) :
    (c.set_i16 index v).instructions.getD i 0 = c.instructions.getD i 0 := by
  simp only [Chunk.set_i16, List.getD, List.get?_eq_getElem?]
  rw [List.getElem?_set_ne (by omega), List.getElem?_set_ne (by omega)]

/-- **C2.** Patching a jump whose opcode byte sits at index `op` (so the
2-byte offset slot begins at `op + 1`) toward destination `tgt` stores,
little-endian, the signed 16-bit value `tgt - (op + 3)`; equivalently
`patch_instruction_to(index, to)` stores `to - index - 2` at the offset
slot.  The length of the chunk and every byte outside the offset slot
are unchanged. -/
theorem c2_patch_jump_offset (c : Chunk) (op tgt : Nat)
    (hlen : op + 3 ≤ c.instructions.length)
    (hlo : -32768 ≤ (tgt : Int) - (op : Int) - 3)
    (hhi : (tgt : Int) - (op : Int) - 3 < 32768) :
    decodeI16 ((c.patch_instruction_to (op + 1) tgt).instructions.getD (op + 1) 0)
        ((c.patch_instruction_to (op + 1) tgt).instructions.getD (op + 2) 0)
      = (tgt : Int) - (op : Int) - 3 ∧
    (c.patch_instruction_to (op + 1) tgt).instructions.length
      = c.instructions.length ∧
    ∀ i, i ≠ op + 1 → i ≠ op + 2 →
      (c.patch_instruction_to (op + 1) tgt).instructions.getD i 0
        = c.instructions.getD i 0 := by
  have hval : (tgt : Int) - ((op + 1 : Nat) : Int) - 2 = (tgt : Int) - (op : Int) - 3 := by
    push_cast
    ring
  refine ⟨?_, ?_, ?_⟩
  · unfold Chunk.patch_instruction_to
    rw [getD_set_i16_lo _ _ _ (by omega), getD_set_i16_hi _ _ _ (by omega), hval]
    exact i16_roundtrip _ hlo hhi
  · exact length_set_i16 _ _ _
  · intro i h1 h2
    unfold Chunk.patch_instruction_to
    exact getD_set_i16_other _ _ _ _ h1 (by omega)

/-- Witness for **C2**: the `while(true) print 3;` chunk of the
compiler test suite, where the backward `JUMP` at index 9 is patched to
target 0 and must store offset `-12` (bytes `244, 255`). -/
theorem c2_patch_jump_offset_witness :
    (0 : Nat) + 3 ≤ (Chunk.mk [1, 2, 0, 0, 3, 4, 0, 0, 5, 6, 0, 0, 3, 7]).instructions.length ∧
    decodeI16 (((Chunk.mk [1, 2, 0, 0, 3, 4, 0, 0, 5, 6, 0, 0, 3, 7]).patch_instruction_to
        (9 + 1) 0).instructions.getD (9 + 1) 0)
      (((Chunk.mk [1, 2, 0, 0, 3, 4, 0, 0, 5, 6, 0, 0, 3, 7]).patch_instruction_to
        (9 + 1) 0).instructions.getD (9 + 2) 0) = (0 : Int) - (9 : Int) - 3 := by
  refine ⟨by decide, ?_⟩
  exact (c2_patch_jump_offset (Chunk.mk [1, 2, 0, 0, 3, 4, 0, 0, 5, 6, 0, 0, 3, 7]) 9 0
    (by decide) (by decide) (by decide)).1

end Bytecode

namespace ValueModel

/-- `const QNAN: u64 = 0x7ffc_0000_0000_0000` -/
def QNAN : Nat := 0x7ffc000000000000

/-- `const SIGN_BIT: u64 = 0x8000_0000_0000_0000` -/
def SIGN_BIT : Nat := 0x8000000000000000

/-- A 64-bit NaN-boxed runtime value (`Value(u64)` in `value.rs`). -/
structure Value where
  bits : Nat
deriving DecidableEq, Repr

/-- `Value::NIL` (`QNAN | TAG_NIL`, `TAG_NIL = 1`). -/
def Value.NIL : Value := ⟨QNAN ||| 1⟩

/-- `Value::FALSE` (`QNAN | TAG_FALSE`, `TAG_FALSE = 2`). -/
def Value.FALSE : Value := ⟨QNAN ||| 2⟩

/-- `Value::TRUE` (`QNAN | TAG_TRUE`, `TAG_TRUE = 3`). -/
def Value.TRUE : Value := ⟨QNAN ||| 3⟩

/-- `Value::from_object`: box a heap pointer (`SIGN_BIT | QNAN | bits`). -/
def Value.from_object (ptr : Nat) : Value := ⟨SIGN_BIT ||| QNAN ||| ptr⟩

/-- `Value::is_number`: `self.0 & QNAN != QNAN`. -/
def Value.is_number (v : Value) : Bool := v.bits &&& QNAN != QNAN

/-- `Value::is_object`: `self.0 & (SIGN_BIT | QNAN) == (SIGN_BIT | QNAN)`. -/
def Value.is_object (v : Value) : Bool :=
  v.bits &&& (SIGN_BIT ||| QNAN) == SIGN_BIT ||| QNAN

/-- `Value::as_object`: strip the box, recovering the raw pointer
(`self.0 & !(SIGN_BIT | QNAN)`; `!` on `u64` is complement within
`2^64`, i.e. xor with `2^64 - 1`). -/
def Value.as_object (v : Value) : Nat :=
  v.bits &&& ((2 ^ 64 - 1) ^^^ (SIGN_BIT ||| QNAN))

/-- `Value::is_nil`: `self.0 == Self::NIL.0`. -/
def Value.is_nil (v : Value) : Bool := v.bits == Value.NIL.bits

/-- `Value::is_falsey`: `FALSE`, else `is_nil`. -/
def Value.is_falsey (v : Value) : Bool :=
  if v.bits == Value.FALSE.bits then true else v.is_nil

/-- A well-formed runtime value: produced by one of the `Value`
constructors — a number (any bit pattern that is not a saturated
quiet-NaN mask), one of the three singletons, or a boxed pointer
(NaN-boxing assumes user pointers fit in the low 48 bits). -/
def Value.wf (v : Value) : Prop :=
  v.is_number = true ∨ v = Value.NIL ∨ v = Value.FALSE ∨ v = Value.TRUE ∨
    ∃ p, p < 2 ^ 48 ∧ v = Value.from_object p

/-! Bit-level helper lemmas. -/

theorem lor_land_self (x q : Nat) : (x ||| q) &&& q = q := by
  apply Nat.eq_of_testBit_eq
  intro i
  simp only [Nat.testBit_land, Nat.testBit_lor]
  cases x.testBit i <;> cases q.testBit i <;> rfl

theorem testBit_eq_false_of_mod (a k i : Nat) (ha : a % 2 ^ k = 0) (hi : i < k) :
    a.testBit i = false := by
  rw [Nat.testBit_to_div_mod]
  obtain ⟨m, hm⟩ := Nat.dvd_of_mod_eq_zero ha
  subst hm
  have h2 : (2 : Nat) ^ k = 2 ^ i * 2 ^ (k - i) := by
    rw [← pow_add]
    congr 1
    omega
  rw [h2, Nat.mul_assoc, Nat.mul_div_cancel_left _ (Nat.pos_pow_of_pos i (by norm_num))]
  have h3 : (2 : Nat) ^ (k - i) = 2 * 2 ^ (k - i - 1) := by
    rw [← pow_succ']
    congr 1
    omega
  rw [h3, Nat.mul_assoc]
  simp [Nat.mul_mod_right]

theorem testBit_eq_false_of_lt_le (p i k : Nat) (hp : p < 2 ^ k) (h : k ≤ i) :
    p.testBit i = false :=
  Nat.testBit_lt_two_pow (lt_of_lt_of_le hp (Nat.pow_le_pow_right (by norm_num) h))

/-- The boxed form rewritten with the pointer on the outside. -/
theorem from_object_bits_comm (p : Nat) :
    SIGN_BIT ||| QNAN ||| p = p ||| (SIGN_BIT ||| QNAN) := Nat.lor_comm _ _

theorem is_object_from_object (p : Nat) :
    (Value.from_object p).is_object = true := by
  simp only [Value.is_object, Value.from_object, from_object_bits_comm, lor_land_self]
  simp

theorem is_number_from_object (p : Nat) :
    (Value.from_object p).is_number = false := by
  have h : SIGN_BIT ||| QNAN ||| p = (SIGN_BIT ||| p) ||| QNAN := by
    rw [Nat.lor_assoc, Nat.lor_comm QNAN p, ← Nat.lor_assoc]
  simp only [Value.is_number, Value.from_object, h, lor_land_self]
  simp

theorem as_object_from_object (p : Nat) (hp : p < 2 ^ 48) :
    (Value.from_object p).as_object = p := by
  simp only [Value.as_object, Value.from_object]
  apply Nat.eq_of_testBit_eq
  intro i
  simp only [Nat.testBit_land, Nat.testBit_lor, Nat.testBit_xor]
  have hU : (18446744073709551615 : Nat).testBit i = decide (i < 64) := by
    rw [show (18446744073709551615 : Nat) = 2 ^ 64 - 1 by norm_num,
      Nat.testBit_two_pow_sub_one]
  rcases lt_or_le i 48 with h48 | h48
  · have hS : SIGN_BIT.testBit i = false :=
      testBit_eq_false_of_mod _ 63 i (by decide) (by omega)
    have hQ : QNAN.testBit i = false :=
      testBit_eq_false_of_mod _ 50 i (by decide) (by omega)
    have h64 : i < 64 := by omega
    simp [hS, hQ, hU, h64]
  · rcases lt_or_le i 64 with h64 | h64
    · have hp' : p.testBit i = false := testBit_eq_false_of_lt_le p i 48 hp h48
      simp only [hp', hU, decide_eq_true_eq]
      cases hS : SIGN_BIT.testBit i <;> cases hQ : QNAN.testBit i <;> simp [hU, h64]
    · have hp' : p.testBit i = false := testBit_eq_false_of_lt_le p i 48 hp (by omega)
      have hS : SIGN_BIT.testBit i = false :=
        testBit_eq_false_of_lt_le _ i 64 (by decide) h64
      have hQ : QNAN.testBit i = false :=
        testBit_eq_false_of_lt_le _ i 64 (by decide) h64
      simp [hp', hS, hQ, hU]

theorem testBit63_from_object (p : Nat) :
    (Value.from_object p).bits.testBit 63 = true := by
  simp only [Value.from_object, Nat.testBit_lor]
  have h : SIGN_BIT.testBit 63 = true := by decide
  simp [h]

theorem is_number_iff_land (v : Value) :
    v.is_number = false ↔ v.bits &&& QNAN = QNAN := by
  simp [Value.is_number]

theorem is_number_false_of_is_object (v : Value) (h : v.is_object = true) :
    v.is_number = false := by
  rw [is_number_iff_land]
  have hM : v.bits &&& (SIGN_BIT ||| QNAN) = SIGN_BIT ||| QNAN := by
    simpa [Value.is_object] using h
  have hQ : (SIGN_BIT ||| QNAN) &&& QNAN = QNAN := lor_land_self _ _
  calc v.bits &&& QNAN = v.bits &&& ((SIGN_BIT ||| QNAN) &&& QNAN) := by rw [hQ]
    _ = (v.bits &&& (SIGN_BIT ||| QNAN)) &&& QNAN := (Nat.land_assoc _ _ _).symm
    _ = QNAN := by rw [hM, hQ]

/-- Distinct saturation of the quiet-NaN mask separates numbers from
every non-number value. -/
theorem bits_ne_of_number_nonnumber (a b : Value) (ha : a.is_number = true)
    (hb : b.is_number = false) : a.bits ≠ b.bits := by
  intro h
  rw [is_number_iff_land] at hb
  simp [Value.is_number, h, hb] at ha

/-- A runtime heap: each raw pointer designates either a `LoxString`
payload (identified by its byte content) or a payload of some other
type (identified by its `TypeId` tag). -/
inductive HeapObj where
  | lstr (bytes : List Nat)
  | obj (tag : Nat)
deriving DecidableEq, Repr

/-- `Value::is_object_of_type::<LoxString>()`. -/
def isLoxString (heap : Nat → HeapObj) (v : Value) : Bool :=
  v.is_object &&
    (match heap v.as_object with
      | .lstr _ => true
      | .obj _ => false)

/-- The byte content of a `LoxString` value (used by
`impl PartialEq for LoxString`, which compares `&self[..]` with
`&other[..]`, i.e. the byte buffers). -/
def strBytes (heap : Nat → HeapObj) (v : Value) : List Nat :=
  match heap v.as_object with
  | .lstr bs => bs
  | .obj _ => []

/-- Bit-level test for an IEEE-754 binary64 NaN: exponent field all
ones and non-zero mantissa. -/
def f64IsNaN (bits : Nat) : Bool :=
  ((bits >>> 52) &&& 2047) == 2047 && (bits &&& (2 ^ 52 - 1)) != 0

/-- Bit-level test for an IEEE-754 binary64 zero (`+0.0` or `-0.0`). -/
def f64IsZero (bits : Nat) : Bool := bits &&& (2 ^ 63 - 1) == 0

/-- IEEE-754 `==` on binary64 bit patterns (Rust `f64 == f64`): a NaN
compares unequal to everything, `+0.0 == -0.0`, and otherwise two
patterns compare equal exactly when they are identical (distinct
non-NaN, non-zero patterns denote distinct numbers). -/
def f64Eq (a b : Nat) : Bool :=
  if f64IsNaN a || f64IsNaN b then false
  else if f64IsZero a && f64IsZero b then true
  else a == b

/-- `impl PartialEq for Value` in `value.rs`: numbers by IEEE `==`,
`LoxString`s by byte content, other objects by pointer identity,
anything else by raw bit comparison. -/
def value_eq (heap : Nat → HeapObj) (a b : Value) : Bool :=
  if a.is_number && b.is_number then f64Eq a.bits b.bits
  else if isLoxString heap a && isLoxString heap b then
    strBytes heap a == strBytes heap b
  else if a.is_object && b.is_object then a.as_object == b.as_object
  else a.bits == b.bits

/-- The dynamic type of a value, for stating type-disjointness. -/
inductive VKind where
  | num
  | knil
  | kbool
  | kstr
  | kobj
deriving DecidableEq, Repr

/-- Classify a well-formed value by its dynamic type. -/
def kindOf (heap : Nat → HeapObj) (v : Value) : VKind :=
  if v.is_number then .num
  else if v.bits == Value.NIL.bits then .knil
  else if v.bits == Value.FALSE.bits || v.bits == Value.TRUE.bits then .kbool
  else if isLoxString heap v then .kstr
  else .kobj

theorem is_object_false_of_number (v : Value) (h : v.is_number = true) :
    v.is_object = false := by
  cases hobj : v.is_object
  · rfl
  · rw [is_number_false_of_is_object v hobj] at h
    cases h

theorem is_number_NIL : Value.NIL.is_number = false := by decide

theorem is_number_FALSE : Value.FALSE.is_number = false := by decide

theorem is_number_TRUE : Value.TRUE.is_number = false := by decide

theorem is_object_NIL : Value.NIL.is_object = false := by decide

theorem is_object_FALSE : Value.FALSE.is_object = false := by decide

theorem is_object_TRUE : Value.TRUE.is_object = false := by decide

theorem testBit63_NIL : Value.NIL.bits.testBit 63 = false := by decide

theorem testBit63_FALSE : Value.FALSE.bits.testBit 63 = false := by decide

theorem testBit63_TRUE : Value.TRUE.bits.testBit 63 = false := by decide

theorem bits_ne_of_testBit63 (v w : Value) (hv : v.bits.testBit 63 = false)
    (hw : w.bits.testBit 63 = true) : v.bits ≠ w.bits := by
  intro h
  rw [h, hw] at hv
  cases hv

theorem isLoxString_false_of_not_object (heap : Nat → HeapObj) (v : Value)
    (h : v.is_object = false) : isLoxString heap v = false := by
  simp [isLoxString, h]

theorem value_eq_eq_bits_beq (heap : Nat → HeapObj) (a b : Value)
    (h1 : (a.is_number && b.is_number) = false)
    (h2 : (isLoxString heap a && isLoxString heap b) = false)
    (h3 : (a.is_object && b.is_object) = false) :
    value_eq heap a b = (a.bits == b.bits) := by
  simp only [value_eq, h1, h2, h3]
  rfl

theorem kindOf_NIL (heap : Nat → HeapObj) : kindOf heap Value.NIL = .knil := by
  simp [kindOf, is_number_NIL]

theorem kindOf_FALSE (heap : Nat → HeapObj) : kindOf heap Value.FALSE = .kbool := by
  simp [kindOf, is_number_FALSE]
  decide

theorem kindOf_TRUE (heap : Nat → HeapObj) : kindOf heap Value.TRUE = .kbool := by
  simp [kindOf, is_number_TRUE]
  decide

theorem beq_bits_singleton_object_false (v : Value) (p : Nat)
    (hv : v.bits.testBit 63 = false) :
    (v.bits == (Value.from_object p).bits) = false := by
  rw [beq_eq_false_iff_ne]
  exact bits_ne_of_testBit63 v (Value.from_object p) hv (testBit63_from_object p)

theorem bits_beq_NIL_from_object (p : Nat) :
    ((Value.from_object p).bits == Value.NIL.bits) = false := by
  rw [beq_eq_false_iff_ne]
  exact fun h =>
    bits_ne_of_testBit63 Value.NIL (Value.from_object p) testBit63_NIL
      (testBit63_from_object p) h.symm

theorem bits_beq_FALSE_from_object (p : Nat) :
    ((Value.from_object p).bits == Value.FALSE.bits) = false := by
  rw [beq_eq_false_iff_ne]
  exact fun h =>
    bits_ne_of_testBit63 Value.FALSE (Value.from_object p) testBit63_FALSE
      (testBit63_from_object p) h.symm

theorem bits_beq_TRUE_from_object (p : Nat) :
    ((Value.from_object p).bits == Value.TRUE.bits) = false := by
  rw [beq_eq_false_iff_ne]
  exact fun h =>
    bits_ne_of_testBit63 Value.TRUE (Value.from_object p) testBit63_TRUE
      (testBit63_from_object p) h.symm

theorem kindOf_from_object (heap : Nat → HeapObj) (p : Nat) :
    kindOf heap (Value.from_object p)
      = if isLoxString heap (Value.from_object p) then .kstr else .kobj := by
  simp [kindOf, is_number_from_object, bits_beq_NIL_from_object,
    bits_beq_FALSE_from_object, bits_beq_TRUE_from_object]

/-- **C5.** `Value` equality returns IEEE `==` when both operands are
numbers (so a NaN is unequal to itself), byte-content equality when both
are `LoxString`s, pointer identity when both are heap objects not both
strings, and `false` whenever the two operands have disjoint dynamic
types. -/
theorem c5_value_equality (heap : Nat → HeapObj) (a b : Value)
    (ha : a.wf) (hb : b.wf) :
    (a.is_number = true → b.is_number = true →
      value_eq heap a b = f64Eq a.bits b.bits) ∧
    (a.is_number = true → f64IsNaN a.bits = true → value_eq heap a a = false) ∧
    (∀ pa pb ba bb, a = Value.from_object pa → b = Value.from_object pb →
      pa < 2 ^ 48 → pb < 2 ^ 48 → heap pa = .lstr ba → heap pb = .lstr bb →
      value_eq heap a b = (ba == bb)) ∧
    (∀ pa pb, a = Value.from_object pa → b = Value.from_object pb →
      pa < 2 ^ 48 → pb < 2 ^ 48 →
      ¬(isLoxString heap a = true ∧ isLoxString heap b = true) →
      value_eq heap a b = (pa == pb)) ∧
    (kindOf heap a ≠ kindOf heap b → value_eq heap a b = false) := by
  refine ⟨?_, ?_, ?_, ?_, ?_⟩
  · intro h1 h2
    simp [value_eq, h1, h2]
  · intro h1 hn
    simp [value_eq, h1, f64Eq, hn]
  · rintro pa pb ba bb rfl rfl hpa hpb hha hhb
    have hb1 : (Value.from_object pa).is_number = false := is_number_from_object pa
    have hb2 : (Value.from_object pb).is_number = false := is_number_from_object pb
    have hs1 : isLoxString heap (Value.from_object pa) = true := by
      simp [isLoxString, is_object_from_object, as_object_from_object _ hpa, hha]
    have hs2 : isLoxString heap (Value.from_object pb) = true := by
      simp [isLoxString, is_object_from_object, as_object_from_object _ hpb, hhb]
    simp [value_eq, hb1, hb2, hs1, hs2, strBytes, as_object_from_object _ hpa,
      as_object_from_object _ hpb, hha, hhb]
  · rintro pa pb rfl rfl hpa hpb hns
    have hb1 : (Value.from_object pa).is_number = false := is_number_from_object pa
    have hb2 : (Value.from_object pb).is_number = false := is_number_from_object pb
    have h2 : (isLoxString heap (Value.from_object pa) &&
        isLoxString heap (Value.from_object pb)) = false := by
      cases hx : isLoxString heap (Value.from_object pa) <;>
        cases hy : isLoxString heap (Value.from_object pb) <;>
          simp_all
    simp [value_eq, hb1, hb2, h2, is_object_from_object,
      as_object_from_object _ hpa, as_object_from_object _ hpb]
  · intro hk
    rcases ha with hA | rfl | rfl | rfl | ⟨pa, hpa, rfl⟩ <;>
      rcases hb with hB | rfl | rfl | rfl | ⟨pb, hpb, rfl⟩
    · exact absurd (by simp [kindOf, hA, hB]) hk
    · rw [value_eq_eq_bits_beq heap _ _ (by simp [is_number_NIL])
        (by simp [isLoxString_false_of_not_object heap _ is_object_NIL])
        (by simp [is_object_NIL]), beq_eq_false_iff_ne]
      exact bits_ne_of_number_nonnumber _ _ hA is_number_NIL
    · rw [value_eq_eq_bits_beq heap _ _ (by simp [is_number_FALSE])
        (by simp [isLoxString_false_of_not_object heap _ is_object_FALSE])
        (by simp [is_object_FALSE]), beq_eq_false_iff_ne]
      exact bits_ne_of_number_nonnumber _ _ hA is_number_FALSE
    · rw [value_eq_eq_bits_beq heap _ _ (by simp [is_number_TRUE])
        (by simp [isLoxString_false_of_not_object heap _ is_object_TRUE])
        (by simp [is_object_TRUE]), beq_eq_false_iff_ne]
      exact bits_ne_of_number_nonnumber _ _ hA is_number_TRUE
    · rw [value_eq_eq_bits_beq heap _ _ (by simp [is_number_from_object])
        (by simp [isLoxString_false_of_not_object heap _
          (is_object_false_of_number _ hA)])
        (by simp [is_object_false_of_number _ hA]), beq_eq_false_iff_ne]
      exact bits_ne_of_number_nonnumber _ _ hA (is_number_from_object pb)
    · rw [value_eq_eq_bits_beq heap _ _ (by simp [is_number_NIL])
        (by simp [isLoxString_false_of_not_object heap _ is_object_NIL])
        (by simp [is_object_NIL]), beq_eq_false_iff_ne]
      exact fun h => bits_ne_of_number_nonnumber _ _ hB is_number_NIL h.symm
    · exact absurd rfl hk
    · rw [value_eq_eq_bits_beq heap _ _ (by simp [is_number_NIL])
        (by simp [isLoxString_false_of_not_object heap _ is_object_NIL])
        (by simp [is_object_NIL])]
      decide
    · rw [value_eq_eq_bits_beq heap _ _ (by simp [is_number_NIL])
        (by simp [isLoxString_false_of_not_object heap _ is_object_NIL])
        (by simp [is_object_NIL])]
      decide
    · rw [value_eq_eq_bits_beq heap _ _ (by simp [is_number_NIL])
        (by simp [isLoxString_false_of_not_object heap _ is_object_NIL])
        (by simp [is_object_NIL])]
      exact beq_bits_singleton_object_false _ _ testBit63_NIL
    · rw [value_eq_eq_bits_beq heap _ _ (by simp [is_number_FALSE])
        (by simp [isLoxString_false_of_not_object heap _ is_object_FALSE])
        (by simp [is_object_FALSE]), beq_eq_false_iff_ne]
      exact fun h => bits_ne_of_number_nonnumber _ _ hB is_number_FALSE h.symm
    · rw [value_eq_eq_bits_beq heap _ _ (by simp [is_number_FALSE])
        (by simp [isLoxString_false_of_not_object heap _ is_object_FALSE])
        (by simp [is_object_FALSE])]
      decide
    · exact absurd rfl hk
    · rw [value_eq_eq_bits_beq heap _ _ (by simp [is_number_FALSE])
        (by simp [isLoxString_false_of_not_object heap _ is_object_FALSE])
        (by simp [is_object_FALSE])]
      decide
    · rw [value_eq_eq_bits_beq heap _ _ (by simp [is_number_FALSE])
        (by simp [isLoxString_false_of_not_object heap _ is_object_FALSE])
        (by simp [is_object_FALSE])]
      exact beq_bits_singleton_object_false _ _ testBit63_FALSE
    · rw [value_eq_eq_bits_beq heap _ _ (by simp [is_number_TRUE])
        (by simp [isLoxString_false_of_not_object heap _ is_object_TRUE])
        (by simp [is_object_TRUE]), beq_eq_false_iff_ne]
      exact fun h => bits_ne_of_number_nonnumber _ _ hB is_number_TRUE h.symm
    · rw [value_eq_eq_bits_beq heap _ _ (by simp [is_number_TRUE])
        (by simp [isLoxString_false_of_not_object heap _ is_object_TRUE])
        (by simp [is_object_TRUE])]
      decide
    · rw [value_eq_eq_bits_beq heap _ _ (by simp [is_number_TRUE])
        (by simp [isLoxString_false_of_not_object heap _ is_object_TRUE])
        (by simp [is_object_TRUE])]
      decide
    · exact absurd rfl hk
    · rw [value_eq_eq_bits_beq heap _ _ (by simp [is_number_TRUE])
        (by simp [isLoxString_false_of_not_object heap _ is_object_TRUE])
        (by simp [is_object_TRUE])]
      exact beq_bits_singleton_object_false _ _ testBit63_TRUE
    · rw [value_eq_eq_bits_beq heap _ _ (by simp [is_number_from_object])
        (by simp [isLoxString_false_of_not_object heap _
          (is_object_false_of_number _ hB)])
        (by simp [is_object_false_of_number _ hB]), beq_eq_false_iff_ne]
      exact (bits_ne_of_number_nonnumber _ _ hB (is_number_from_object pa)).symm
    · rw [value_eq_eq_bits_beq heap _ _ (by simp [is_number_NIL])
        (by simp [isLoxString_false_of_not_object heap _ is_object_NIL])
        (by simp [is_object_NIL])]
      exact bits_beq_NIL_from_object pa
    · rw [value_eq_eq_bits_beq heap _ _ (by simp [is_number_FALSE])
        (by simp [isLoxString_false_of_not_object heap _ is_object_FALSE])
        (by simp [is_object_FALSE])]
      exact bits_beq_FALSE_from_object pa
    · rw [value_eq_eq_bits_beq heap _ _ (by simp [is_number_TRUE])
        (by simp [isLoxString_false_of_not_object heap _ is_object_TRUE])
        (by simp [is_object_TRUE])]
      exact bits_beq_TRUE_from_object pa
    · have hks : isLoxString heap (Value.from_object pa)
          ≠ isLoxString heap (Value.from_object pb) := by
        intro hsame
        apply hk
        rw [kindOf_from_object, kindOf_from_object, hsame]
      have h2 : (isLoxString heap (Value.from_object pa) &&
          isLoxString heap (Value.from_object pb)) = false := by
        cases hx : isLoxString heap (Value.from_object pa) <;>
          cases hy : isLoxString heap (Value.from_object pb) <;> simp_all
      have hpne : pa ≠ pb := by
        rintro rfl
        exact hks rfl
      simp [value_eq, is_number_from_object, h2, is_object_from_object,
        as_object_from_object _ hpa, as_object_from_object _ hpb, hpne]

/-- Witness for **C5**: over a one-string heap, a NaN number value, the
`nil` singleton, and a boxed string pointer pairwise compare as the
claim requires. -/
theorem c5_value_equality_witness :
    (Value.mk 0x7ff8000000000000).wf ∧ Value.NIL.wf ∧
    value_eq (fun _ => .lstr [104, 105]) (Value.mk 0x7ff8000000000000)
      (Value.mk 0x7ff8000000000000) = false := by
  have hwf1 : (Value.mk 0x7ff8000000000000).wf := Or.inl (by decide)
  have hwf2 : Value.NIL.wf := Or.inr (Or.inl rfl)
  refine ⟨hwf1, hwf2, ?_⟩
  exact (c5_value_equality (fun _ => .lstr [104, 105]) _ _ hwf1 hwf2).2.1
    (by decide) (by decide)

/-- **C10.** A value is falsey exactly when it is `nil` or the boolean
`false`; numbers (including `0.0` and NaN), `true`, and every boxed
heap object are truthy. -/
theorem c10_is_falsey (v : Value) (hv : v.wf) :
    (v.is_falsey = true ↔ (v = Value.NIL ∨ v = Value.FALSE)) ∧
    (v.is_number = true → v.is_falsey = false) ∧
    (∀ p, v = Value.from_object p → v.is_falsey = false) := by
  have hnum : v.is_number = true → v.is_falsey = false := by
    intro h
    have h1 : v.bits ≠ Value.FALSE.bits :=
      bits_ne_of_number_nonnumber v Value.FALSE h is_number_FALSE
    have h2 : v.bits ≠ Value.NIL.bits :=
      bits_ne_of_number_nonnumber v Value.NIL h is_number_NIL
    simp [Value.is_falsey, Value.is_nil, h1, h2]
  have hobj : ∀ p, v = Value.from_object p → v.is_falsey = false := by
    rintro p rfl
    simp [Value.is_falsey, Value.is_nil, bits_beq_FALSE_from_object,
      bits_beq_NIL_from_object]
  refine ⟨?_, hnum, hobj⟩
  constructor
  · intro h
    rcases hv with hA | rfl | rfl | rfl | ⟨p, hp, rfl⟩
    · rw [hnum hA] at h
      cases h
    · exact Or.inl rfl
    · exact Or.inr rfl
    · rw [show Value.TRUE.is_falsey = false by decide] at h
      cases h
    · rw [hobj p rfl] at h
      cases h
  · rintro (rfl | rfl) <;> decide

/-- Witness for **C10**: the number `0.0` (bit pattern 0) is well-formed
and truthy, while `nil` is falsey. -/
theorem c10_is_falsey_witness :
    (Value.mk 0).wf ∧ (Value.mk 0).is_falsey = false ∧
    Value.NIL.is_falsey = true := by
  have hwf : (Value.mk 0).wf := Or.inl (by decide)
  refine ⟨hwf, ?_, by decide⟩
  exact (c10_is_falsey (Value.mk 0) hwf).2.1 (by decide)

end ValueModel

namespace InternerModel

/-- `Interner` in `interner.rs`: a monotone counter starting at 1
(0 is the invalid sentinel `Symbol`) plus a string-to-symbol map
(modelled as an association list). -/
structure Interner where
  next : Nat
  map : List (String × Nat)
deriving DecidableEq, Repr

/-- `Interner::new` -/
def Interner.new : Interner := ⟨1, []⟩

/-- `Interner::intern`: return the existing symbol, or assign `next`,
bump the counter and record the assignment. -/
def Interner.intern (i : Interner) (string : String) : Nat × Interner :=
  match i.map.lookup string with
  | some symbol => (symbol, i)
  | none => (i.next, ⟨i.next + 1, i.map ++ [(string, i.next)]⟩)

end InternerModel

namespace CompilerModel

/-- `Local` in `locals.rs`: `{name, depth, slot, initialized, is_upvalue}`. -/
structure Local where
  name : String
  depth : Nat
  slot : Nat
  initialized : Bool
  is_upvalue : Bool
deriving DecidableEq, Repr

/-- `Locals` in `locals.rs`: the stack of locals plus the current
lexical depth. -/
structure Locals where
  stack : List Local
  scope_depth : Nat
deriving DecidableEq, Repr

/-- `Locals::new` -/
def Locals.new : Locals := ⟨[], 0⟩

/-- `Locals::begin_scope` -/
def Locals.begin_scope (l : Locals) : Locals :=
  { l with scope_depth := l.scope_depth + 1 }

/-- `Locals::end_scope`: decrement the depth, then `split_off` at the
first index whose local is deeper than the new depth.  Returns the new
`Locals` and the split-off tail (the removed locals). -/
def Locals.end_scope (l : Locals) : Locals × List Local :=
  let d := l.scope_depth - 1
  let index := (l.stack.findIdx? fun loc => decide (d < loc.depth)).getD l.stack.length
  (⟨l.stack.take index, d⟩, l.stack.drop index)

/-- `Locals::get`: the most recently declared local with this name
(`iter().rev().find`). -/
def Locals.get (l : Locals) (identifier : String) : Option Local :=
  l.stack.reverse.find? fun loc => loc.name == identifier

/-- `Locals::get_at_depth` -/
def Locals.get_at_depth (l : Locals) (identifier : String) (depth : Nat) : Option Local :=
  l.stack.reverse.find? fun loc => loc.depth == depth && loc.name == identifier

/-- `Locals::get_at_current_depth` -/
def Locals.get_at_current_depth (l : Locals) (identifier : String) : Option Local :=
  l.get_at_depth identifier l.scope_depth

/-- Set `is_upvalue` on the first local with the given slot
(`iter_mut().find(|l| l.slot == slot)`). -/
def markCapturedList : List Local → Nat → List Local
  | [], _ => []
  | loc :: rest, slot =>
    if loc.slot = slot then { loc with is_upvalue := true } :: rest
    else loc :: markCapturedList rest slot

/-- `Locals::mark_captured` -/
def Locals.mark_captured (l : Locals) (slot : Nat) : Locals :=
  { l with stack := markCapturedList l.stack slot }

/-- Set `initialized` on the last element of the stack.  (The Rust code
indexes `stack[len - 1]` and panics on an empty stack; the model leaves
the empty stack unchanged.) -/
def setInitializedLast : List Local → List Local
  | [] => []
  | [x] => [{ x with initialized := true }]
  | x :: rest => x :: setInitializedLast rest

/-- `Locals::mark_initialized` -/
def Locals.mark_initialized (l : Locals) : Locals :=
  { l with stack := setInitializedLast l.stack }

/-- `Locals::insert`: refuse duplicates at the current depth, otherwise
push a new uninitialized local whose slot is the stack position. -/
def Locals.insert (l : Locals) (identifier : String) : Locals :=
  if (l.get_at_depth identifier l.scope_depth).isSome then l
  else
    { l with
      stack := l.stack ++
        [⟨identifier, l.scope_depth, l.stack.length, false, false⟩] }

/-- `Upvalue` in `bytecode.rs`: `Local(slot)` or `Upvalue(index)`. -/
inductive Upvalue where
  | Local (slot : Nat)
  | Upvalue (index : Nat)
deriving DecidableEq, Repr

/-- `ContextType` in `compiler.rs`. -/
inductive ContextType where
  | Function
  | Initializer
  | Method
  | TopLevel
deriving DecidableEq, Repr

/-- `Function` in `bytecode.rs`. -/
structure Function where
  name : String
  chunk_index : Nat
  arity : Nat
deriving DecidableEq, Repr

/-- `Closure` in `bytecode.rs`. -/
structure Closure where
  function : Function
  upvalues : List Upvalue
deriving DecidableEq, Repr

/-- `Class` in `bytecode.rs`. -/
structure Class where
  name : String
deriving DecidableEq, Repr

/-- `Module` in `bytecode.rs`.  Numbers are stored as their `f64` bit
patterns (the compiler's dedup map is keyed on `f64::to_bits`). -/
structure Module where
  chunks : List Bytecode.Chunk
  closures : List Closure
  classes : List Class
  identifiers : List String
  numbers : List Nat
  strings : List String
deriving DecidableEq, Repr

/-- `Module::new` -/
def Module.new : Module := ⟨[], [], [], [], [], []⟩

/-- `Module::add_chunk` -/
def Module.add_chunk (m : Module) : Module × Nat :=
  ({ m with chunks := m.chunks ++ [Bytecode.Chunk.new] }, m.chunks.length)

/-- `Module::add_closure` -/
def Module.add_closure (m : Module) (c : Closure) : Module × Nat :=
  ({ m with closures := m.closures ++ [c] }, m.closures.length)

/-- `Module::add_class` -/
def Module.add_class (m : Module) (c : Class) : Module × Nat :=
  ({ m with classes := m.classes ++ [c] }, m.classes.length)

/-- `Module::add_identifier` -/
def Module.add_identifier (m : Module) (identifier : String) : Module × Nat :=
  ({ m with identifiers := m.identifiers ++ [identifier] }, m.identifiers.length)

/-- `Module::add_number` (the number is its bit pattern) -/
def Module.add_number (m : Module) (n : Nat) : Module × Nat :=
  ({ m with numbers := m.numbers ++ [n] }, m.numbers.length)

/-- `Module::add_string` -/
def Module.add_string (m : Module) (value : String) : Module × Nat :=
  ({ m with strings := m.strings ++ [value] }, m.strings.length)

/-- `Span` in `position.rs` (byte offsets). -/
structure Span where
  start : Nat
  stop : Nat
deriving DecidableEq, Repr

/-- `Span::empty` -/
def Span.empty : Span := ⟨0, 0⟩

/-- `Diagnostic` in `position.rs`. -/
structure Diagnostic where
  span : Span
  message : String
deriving DecidableEq, Repr

/-- `CompilerContext` in `compiler.rs`. -/
structure CompilerContext where
  context_type : ContextType
  chunk_index : Nat
  locals : Locals
  upvalues : List Upvalue
deriving DecidableEq, Repr

/-- `CompilerContext::new` -/
def CompilerContext.new (context_type : ContextType) (chunk_index : Nat) :
    CompilerContext :=
  ⟨context_type, chunk_index, Locals.new, []⟩

/-- `CompilerContext::add_upvalue`: return the index of an equal
existing descriptor, else append and return the new index. -/
def CompilerContext.add_upvalue (c : CompilerContext) (upvalue : Upvalue) :
    Nat × CompilerContext :=
  match c.upvalues.findIdx? fun existing => existing == upvalue with
  | some i => (i, c)
  | none => (c.upvalues.length, { c with upvalues := c.upvalues ++ [upvalue] })

/-- `CompilerContext::resolve_local`: `Some(Some(slot))` for an
initialized local, `None` for an uninitialized one, `Some(None)` when
the name is absent. -/
def CompilerContext.resolve_local (c : CompilerContext) (name : String) :
    Option (Option Nat) :=
  match c.locals.get name with
  | none => some none
  | some l => if l.initialized then some (some l.slot) else none

/-- The compiler state (`Compiler` in `compiler.rs`): the module being
built, the context stack, accumulated diagnostics, and the three
dedup maps (modelled as association lists — `HashMap` lookup by key
equality). -/
structure Compiler where
  module : Module
  contexts : List CompilerContext
  errors : List Diagnostic
  identifiers : List (String × Nat)
  numbers : List (Nat × Nat)
  strings : List (String × Nat)
deriving DecidableEq, Repr

/-- `Compiler::new` -/
def Compiler.new : Compiler := ⟨Module.new, [], [], [], [], []⟩

/-- Apply a function to the last context (the Rust code's
`current_context_mut`). -/
def modifyLast (f : CompilerContext → CompilerContext) :
    List CompilerContext → List CompilerContext
  | [] => []
  | [x] => [f x]
  | x :: rest => x :: modifyLast f rest

/-- `Compiler::begin_context` -/
def Compiler.begin_context (c : Compiler) (context_type : ContextType) : Compiler :=
  { c with
    module := (c.module.add_chunk).1
    contexts := c.contexts ++ [CompilerContext.new context_type (c.module.add_chunk).2] }

/-- `Compiler::end_context`: pop the last context, returning its chunk
index and upvalue list.  (The Rust code panics when no context is open;
the model returns dummies there.) -/
def Compiler.end_context (c : Compiler) : Compiler × (Nat × List Upvalue) :=
  match c.contexts.getLast? with
  | none => (c, (0, []))
  | some ctx => ({ c with contexts := c.contexts.dropLast }, (ctx.chunk_index, ctx.upvalues))

/-- `Compiler::add_local` -/
def Compiler.add_local (c : Compiler) (name : String) : Compiler :=
  { c with contexts := modifyLast (fun ctx => { ctx with locals := ctx.locals.insert name }) c.contexts }

/-- `Compiler::mark_local_initialized` -/
def Compiler.mark_local_initialized (c : Compiler) : Compiler :=
  { c with contexts := modifyLast (fun ctx => { ctx with locals := ctx.locals.mark_initialized }) c.contexts }

/-- `Compiler::begin_scope` -/
def Compiler.begin_scope (c : Compiler) : Compiler :=
  { c with contexts := modifyLast (fun ctx => { ctx with locals := ctx.locals.begin_scope }) c.contexts }

/-- `Compiler::add_error` -/
def Compiler.add_error (c : Compiler) (message : String) (span : Span) : Compiler :=
  { c with errors := c.errors ++ [⟨span, message⟩] }

/-- The chunk index of the current (last) context. -/
def Compiler.current_chunk_index (c : Compiler) : Nat :=
  ((c.contexts.getLast?).map CompilerContext.chunk_index).getD 0

/-- `Compiler::add_u8`: append one byte to the current context's chunk,
returning its instruction index.  (Out-of-range chunk indices panic in
Rust; reachable compiler states keep `chunk_index` in range.) -/
def Compiler.add_u8 (c : Compiler) (instruction : Nat) : Compiler × Nat :=
  let i := c.current_chunk_index
  let chunk := c.module.chunks.getD i Bytecode.Chunk.new
  let r := chunk.add_u8 instruction
  ({ c with module := { c.module with chunks := c.module.chunks.set i r.1 } }, r.2)

/-- Modelled from the spec: `opcode.rs` of `lox-bytecode` is not under
`src/`, so the numeric byte values of the opcodes are unknown; the spec
only requires them to be distinct single bytes.  The values chosen here
are arbitrary but fixed; no claim depends on the particular numbers. -/
def opcodePOP : Nat := 3

/-- Modelled from the spec: see `opcodePOP`. -/
def opcodeCLOSE_UPVALUE : Nat := 24

/-- `Compiler::end_scope`: pop the current scope's locals and emit one
`CLOSE_UPVALUE` (captured) or `POP` (otherwise) per removed local, in
reverse declaration order. -/
def Compiler.end_scope (c : Compiler) : Compiler :=
  match c.contexts.getLast? with
  | none => c
  | some ctx =>
    let removed := (ctx.locals.end_scope).2
    let c1 :=
      { c with
        contexts :=
          modifyLast (fun t => { t with locals := (t.locals.end_scope).1 })
            c.contexts }
    removed.reverse.foldl
      (fun acc loc =>
        (acc.add_u8 (if loc.is_upvalue then opcodeCLOSE_UPVALUE else opcodePOP)).1)
      c1

/-- `Compiler::with_context`: open a context, reserve local slot 0
(empty name for `Function`, `"this"` otherwise), mark it initialized,
run the body, close the context. -/
def Compiler.with_context (c : Compiler) (context_type : ContextType)
    (f : Compiler → Compiler) : Compiler × (Nat × List Upvalue) :=
  let c1 := c.begin_context context_type
  let c2 :=
    if context_type = ContextType.Function then c1.add_local ""
    else c1.add_local "this"
  let c3 := c2.mark_local_initialized
  (f c3).end_context

/-- Apply `f` to the element at index `i` (the Rust code mutates
`self.contexts[i]` in place). -/
def modifyAt (f : CompilerContext → CompilerContext) :
    List CompilerContext → Nat → List CompilerContext
  | [], _ => []
  | x :: rest, 0 => f x :: rest
  | x :: rest, n + 1 => x :: modifyAt f rest n

/-- The loop `for j in (i + 2)..self.contexts.len()` of
`resolve_upvalue`, threading an `Upvalue::Upvalue(index)` descriptor
through each context from `j` up to (excluding) `stop` and carrying the
descriptor index along.  (The `none` branch is unreachable: the caller
keeps `stop ≤ cs.length`.) -/
def threadUpvalues (cs : List CompilerContext) (j stop upv : Nat) :
    List CompilerContext × Nat :=
  if h : j < stop then
    match cs.get? j with
    | none => (cs, upv)
    | some ctx =>
      threadUpvalues
        (modifyAt (fun _ => (ctx.add_upvalue (Upvalue.Upvalue upv)).2) cs j)
        (j + 1) stop (ctx.add_upvalue (Upvalue.Upvalue upv)).1
  else (cs, upv)
termination_by stop - j
decreasing_by omega

/-- The descending search loop of `Compiler::resolve_upvalue`,
positioned at context index `i` (the Rust code iterates
`for i in (0..(self.contexts.len() - 1)).rev()`).  On finding an
initialized local: mark it captured in context `i`, add an
`Upvalue::Local(slot)` descriptor to context `i + 1`, then thread
`Upvalue::Upvalue(index)` through contexts `i + 2 ..` and return the
final descriptor index.  An uninitialized local adds the
"Local not initialized" diagnostic and fails; a missing name moves to
the next enclosing context, failing (global fallback) past context 0. -/
def resolveUpvalueFrom (c : Compiler) (name : String) (i : Nat) :
    Compiler × Option Nat :=
  match c.contexts.get? i with
  | none => (c, none)
  | some ctx =>
    match ctx.resolve_local name with
    | none => (c.add_error "Local not initialized" Span.empty, none)
    | some (some slotv) =>
      (fun cs1 =>
        match cs1.get? (i + 1) with
        | none => ({ c with contexts := cs1 }, none)
        | some ctx1 =>
          (fun r =>
            (fun t => ({ c with contexts := t.1 }, some t.2))
            (threadUpvalues (modifyAt (fun _ => r.2) cs1 (i + 1)) (i + 2)
              c.contexts.length r.1))
          (ctx1.add_upvalue (Upvalue.Local slotv)))
      (modifyAt (fun t => { t with locals := t.locals.mark_captured slotv })
        c.contexts i)
    | some none =>
      if i = 0 then (c, none) else resolveUpvalueFrom c name (i - 1)
termination_by i
decreasing_by omega

/-- `Compiler::resolve_upvalue`: search the enclosing contexts from the
innermost (`len - 2`) outwards; with at most one open context there is
nothing to search. -/
def Compiler.resolve_upvalue (c : Compiler) (name : String) :
    Compiler × Option Nat :=
  if c.contexts.length ≤ 1 then (c, none)
  else resolveUpvalueFrom c name (c.contexts.length - 2)

/-- `Compiler::add_number`: dedup by `f64::to_bits` key. -/
def Compiler.add_number (c : Compiler) (value : Nat) : Compiler × Nat :=
  match c.numbers.lookup value with
  | some index => (c, index)
  | none =>
    let r := c.module.add_number value
    ({ c with module := r.1, numbers := c.numbers ++ [(value, r.2)] }, r.2)

/-- `Compiler::add_string`: dedup by string value. -/
def Compiler.add_string (c : Compiler) (value : String) : Compiler × Nat :=
  match c.strings.lookup value with
  | some index => (c, index)
  | none =>
    let r := c.module.add_string value
    ({ c with module := r.1, strings := c.strings ++ [(value, r.2)] }, r.2)

/-- `Compiler::add_identifier`: dedup by identifier value. -/
def Compiler.add_identifier (c : Compiler) (identifier : String) : Compiler × Nat :=
  match c.identifiers.lookup identifier with
  | some index => (c, index)
  | none =>
    let r := c.module.add_identifier identifier
    ({ c with module := r.1, identifiers := c.identifiers ++ [(identifier, r.2)] },
      r.2)

theorem modifyAt_get?_same (f : CompilerContext → CompilerContext)
    (cs : List CompilerContext) (i : Nat) :
    (modifyAt f cs i).get? i = (cs.get? i).map f := by
  induction cs generalizing i with
  | nil => simp [modifyAt]
  | cons x rest ih =>
    cases i with
    | zero => simp [modifyAt]
    | succ n => simpa [modifyAt] using ih n

theorem modifyAt_get?_ne (f : CompilerContext → CompilerContext)
    (cs : List CompilerContext) (i j : Nat) (h : j ≠ i) :
    (modifyAt f cs i).get? j = cs.get? j := by
  induction cs generalizing i j with
  | nil => simp [modifyAt]
  | cons x rest ih =>
    cases i with
    | zero =>
      cases j with
      | zero => exact absurd rfl h
      | succ m => simp [modifyAt]
    | succ n =>
      cases j with
      | zero => simp [modifyAt]
      | succ m => simpa [modifyAt] using ih n m (by omega)

theorem modifyAt_length (f : CompilerContext → CompilerContext)
    (cs : List CompilerContext) (i : Nat) :
    (modifyAt f cs i).length = cs.length := by
  induction cs generalizing i with
  | nil => rfl
  | cons x rest ih =>
    cases i with
    | zero => rfl
    | succ n => simpa [modifyAt] using ih n

theorem modifyAt_id_self (f : CompilerContext → CompilerContext)
    (cs : List CompilerContext) (i : Nat) (x : CompilerContext)
    (hx : cs.get? i = some x) (hfx : f x = x) :
    modifyAt f cs i = cs := by
  induction cs generalizing i with
  | nil => cases hx
  | cons y rest ih =>
    cases i with
    | zero =>
      simp only [List.get?] at hx
      cases hx
      simp [modifyAt, hfx]
    | succ n =>
      simp only [List.get?] at hx
      simp [modifyAt, ih n hx]

theorem findIdx?_append_single {p : Upvalue → Bool} (l : List Upvalue)
    (x : Upvalue) (h : l.findIdx? p = none) :
    (l ++ [x]).findIdx? p = if p x then some l.length else none := by
  induction l with
  | nil => simp [List.findIdx?_cons]
  | cons y rest ih =>
    rw [List.findIdx?_cons] at h
    rw [List.cons_append, List.findIdx?_cons, List.findIdx?_succ]
    by_cases hy : p y
    · simp [hy] at h
    · simp only [hy, Bool.false_eq_true, if_false] at h ⊢
      rw [List.findIdx?_succ] at h
      have hrest : rest.findIdx? p = none := by
        cases hr : rest.findIdx? p
        · rfl
        · rw [hr] at h
          simp at h
      rw [ih hrest]
      cases hx : p x <;> simp

/-- After `add_upvalue u`, the descriptor `u` sits at the returned
index, which is its first occurrence. -/
theorem add_upvalue_find (c : CompilerContext) (u : Upvalue) :
    ((c.add_upvalue u).2).upvalues.findIdx? (fun e => e == u)
      = some (c.add_upvalue u).1 := by
  unfold CompilerContext.add_upvalue
  cases h : c.upvalues.findIdx? fun e => e == u with
  | some i => simpa [h] using h
  | none =>
    simp only [h]
    rw [findIdx?_append_single _ _ h]
    simp

/-- `add_upvalue` either keeps the descriptor list or appends exactly
one entry, and never touches the other fields. -/
theorem add_upvalue_shape (c : CompilerContext) (u : Upvalue) :
    (((c.add_upvalue u).2).upvalues = c.upvalues ∨
      ((c.add_upvalue u).2).upvalues = c.upvalues ++ [u]) ∧
    ((c.add_upvalue u).2).locals = c.locals ∧
    ((c.add_upvalue u).2).context_type = c.context_type ∧
    ((c.add_upvalue u).2).chunk_index = c.chunk_index := by
  unfold CompilerContext.add_upvalue
  cases h : c.upvalues.findIdx? fun e => e == u with
  | some i => simp [h]
  | none => simp [h]

/-- Re-adding the same descriptor returns the same index and leaves the
context unchanged. -/
theorem add_upvalue_idem (c : CompilerContext) (u : Upvalue) :
    ((c.add_upvalue u).2).add_upvalue u = c.add_upvalue u := by
  have hf := add_upvalue_find c u
  cases hr : c.add_upvalue u with
  | mk idx ctx =>
    rw [hr] at hf
    simp only at hf
    unfold CompilerContext.add_upvalue
    rw [hf]

/-- A context that already holds descriptor `u` at first occurrence
`idx` returns `(idx, itself)` from `add_upvalue u`. -/
theorem add_upvalue_of_found (c : CompilerContext) (u : Upvalue) (idx : Nat)
    (h : c.upvalues.findIdx? (fun e => e == u) = some idx) :
    c.add_upvalue u = (idx, c) := by
  unfold CompilerContext.add_upvalue
  rw [h]

/-- The fields of a local that `resolve_local` can observe (everything
but the `is_upvalue` flag). -/
def localProj (loc : Local) : String × Nat × Nat × Bool :=
  (loc.name, loc.depth, loc.slot, loc.initialized)

theorem markCapturedList_proj (xs : List Local) (s : Nat) :
    (markCapturedList xs s).map localProj = xs.map localProj := by
  induction xs with
  | nil => rfl
  | cons y rest ih =>
    unfold markCapturedList
    by_cases hy : y.slot = s
    · simp [hy, localProj]
    · simp [hy, ih]

theorem find?_name_congr (name : String) (xs : List Local) :
    ∀ ys : List Local, xs.map localProj = ys.map localProj →
      Option.map localProj (xs.find? fun l => l.name == name)
        = Option.map localProj (ys.find? fun l => l.name == name) := by
  induction xs with
  | nil =>
    intro ys h
    cases ys
    · rfl
    · cases h
  | cons x rest ih =>
    intro ys h
    cases ys with
    | nil => cases h
    | cons y more =>
      simp only [List.map_cons, List.cons.injEq] at h
      have hname : x.name = y.name := congrArg (fun q => q.1) h.1
      rw [List.find?_cons, List.find?_cons, hname]
      cases hy : (y.name == name)
      · exact ih more h.2
      · simpa using h.1

theorem resolve_local_mark_captured (ctx : CompilerContext) (name : String)
    (s : Nat) :
    ({ ctx with locals := ctx.locals.mark_captured s } :
        CompilerContext).resolve_local name = ctx.resolve_local name := by
  have hproj : ((markCapturedList ctx.locals.stack s).reverse).map localProj
      = (ctx.locals.stack.reverse).map localProj := by
    rw [List.map_reverse, List.map_reverse, markCapturedList_proj]
  have hfind := find?_name_congr name _ _ hproj
  have hL : ({ ctx with locals := ctx.locals.mark_captured s } :
      CompilerContext).resolve_local name
      = match (markCapturedList ctx.locals.stack s).reverse.find?
          (fun l => l.name == name) with
        | none => some none
        | some l => if l.initialized then some (some l.slot) else none := rfl
  have hR : ctx.resolve_local name
      = match ctx.locals.stack.reverse.find? (fun l => l.name == name) with
        | none => some none
        | some l => if l.initialized then some (some l.slot) else none := rfl
  rw [hL, hR]
  cases h1 : ((markCapturedList ctx.locals.stack s).reverse.find? fun l =>
      l.name == name) with
  | none =>
    cases h2 : (ctx.locals.stack.reverse.find? fun l => l.name == name) with
    | none => rfl
    | some l2 =>
      rw [h1, h2] at hfind
      cases hfind
  | some l1 =>
    cases h2 : (ctx.locals.stack.reverse.find? fun l => l.name == name) with
    | none =>
      rw [h1, h2] at hfind
      cases hfind
    | some l2 =>
      rw [h1, h2] at hfind
      simp only [Option.map_some', Option.some.injEq, localProj] at hfind
      have hinit : l1.initialized = l2.initialized := by
        have := congrArg (fun q => q.2.2.2) hfind
        simpa using this
      have hslot : l1.slot = l2.slot := by
        have := congrArg (fun q => q.2.2.1) hfind
        simpa using this
      dsimp only
      rw [hinit, hslot]

theorem markCapturedList_idem (xs : List Local) (s : Nat) :
    markCapturedList (markCapturedList xs s) s = markCapturedList xs s := by
  induction xs with
  | nil => rfl
  | cons y rest ih =>
    by_cases hy : y.slot = s
    · simp [markCapturedList, hy]
    · simp [markCapturedList, hy, ih]

theorem mark_captured_idem (l : Locals) (s : Nat) :
    (l.mark_captured s).mark_captured s = l.mark_captured s := by
  unfold Locals.mark_captured
  simp [markCapturedList_idem]

theorem markCapturedList_set_of_wf (xs : List Local) :
    ∀ (t base : Nat) (loc : Local),
      (∀ p x, xs.get? p = some x → x.slot = base + p) →
      xs.get? t = some loc →
      markCapturedList xs (base + t) = xs.set t { loc with is_upvalue := true } := by
  induction xs with
  | nil =>
    intro t base loc _ hx
    cases hx
  | cons y rest ih =>
    intro t base loc hwf hx
    cases t with
    | zero =>
      simp only [List.get?] at hx
      injection hx with hyx
      subst hyx
      have hys : y.slot = base := by simpa using hwf 0 y rfl
      unfold markCapturedList
      simp [hys]
    | succ n =>
      simp only [List.get?] at hx
      have hy : y.slot = base := by simpa using hwf 0 y rfl
      unfold markCapturedList
      have hne : ¬y.slot = base + (n + 1) := by omega
      simp only [hne, if_false]
      have hrest : ∀ p x, rest.get? p = some x → x.slot = (base + 1) + p := by
        intro p x hp
        have := hwf (p + 1) x (by simpa using hp)
        omega
      have := ih n (base + 1) loc hrest hx
      rw [show base + (n + 1) = base + 1 + n by omega, this]
      simp [List.set]

/-- Inversion of a successful `resolve_local`: there is a most recent
local with the name, initialized, at the returned slot. -/
theorem resolve_local_inv (ctx : CompilerContext) (name : String) (s : Nat)
    (h : ctx.resolve_local name = some (some s)) :
    ∃ loc, ctx.locals.get name = some loc ∧ loc.initialized = true ∧
      loc.slot = s := by
  unfold CompilerContext.resolve_local at h
  cases hg : ctx.locals.get name with
  | none =>
    rw [hg] at h
    cases h
  | some loc =>
    rw [hg] at h
    dsimp only at h
    by_cases hi : loc.initialized
    · rw [if_pos hi] at h
      exact ⟨loc, rfl, by simpa using hi, by injection h with h2; injection h2⟩
    · rw [if_neg hi] at h
      cases h

/-- Marking the resolved local: under the slots-are-positions invariant
the flag lands on exactly the local that `Locals::get` returned. -/
theorem mark_captured_hits (l : Locals) (name : String) (loc : Local)
    (hwf : ∀ p x, l.stack.get? p = some x → x.slot = p)
    (hget : l.get name = some loc) :
    (l.mark_captured loc.slot).stack.get? loc.slot
      = some { loc with is_upvalue := true } := by
  have hmem : loc ∈ l.stack := by
    have := List.mem_of_find?_eq_some hget
    simpa using this
  obtain ⟨n, hn⟩ := List.get_of_mem hmem
  have hget? : l.stack.get? n.1 = some loc := by
    rw [List.get?_eq_get n.2, hn]
  have hslot : loc.slot = n.1 := hwf n.1 loc hget?
  unfold Locals.mark_captured
  have := markCapturedList_set_of_wf l.stack n.1 0 loc
    (by intro p x hp; simpa using hwf p x hp) hget?
  simp only [Nat.zero_add] at this
  rw [hslot, this]
  simp only [List.get?_eq_getElem?]
  rw [List.getElem?_set_eq_of_lt _ (by simpa using n.2)]
  rw [hslot]

/-- The descriptor chain the spec describes: context `k+1` holds a
`Local slot` descriptor (at the first occurrence `idx`), and each
context above holds an `Upvalue` descriptor pointing at the previous
link's index.  `UpChain cs slot k j idx` says the chain reaches context
`j`, whose link is descriptor `idx`. -/
inductive UpChain (cs : List CompilerContext) (slot k : Nat) : Nat → Nat → Prop where
  | base (ctx : CompilerContext) (idx : Nat)
      (hctx : cs.get? (k + 1) = some ctx)
      (hfind : ctx.upvalues.findIdx? (fun u => u == Upvalue.Local slot) = some idx) :
      UpChain cs slot k (k + 1) idx
  | step (j prev idx : Nat) (ctx : CompilerContext)
      (hprev : UpChain cs slot k j prev)
      (hctx : cs.get? (j + 1) = some ctx)
      (hfind : ctx.upvalues.findIdx? (fun u => u == Upvalue.Upvalue prev) = some idx) :
      UpChain cs slot k (j + 1) idx

theorem UpChain.mono {cs cs' : List CompilerContext} {slot k j idx : Nat}
    (h : UpChain cs slot k j idx)
    (hpres : ∀ i, i ≤ j → cs'.get? i = cs.get? i) : UpChain cs' slot k j idx := by
  induction h with
  | base ctx idx hctx hfind =>
    exact UpChain.base ctx idx ((hpres (k + 1) (le_refl _)).trans hctx) hfind
  | step j prev idx ctx hprev hctx hfind ih =>
    exact UpChain.step j prev idx ctx
      (ih fun i hi => hpres i (by omega))
      ((hpres (j + 1) (le_refl _)).trans hctx) hfind

/-- Behaviour of the threading loop: it preserves the context count,
touches only contexts in `[j, stop)`, changes each of those by at most
one appended descriptor (never locals or metadata), and is idempotent:
re-running it over its own output with the same entry index changes
nothing and returns the same final index. -/
theorem threadUpvalues_spec (stop : Nat) (n : Nat) :
    ∀ (cs : List CompilerContext) (j upv : Nat), stop ≤ cs.length →
      stop - j = n →
      (threadUpvalues cs j stop upv).1.length = cs.length ∧
      (∀ i, i < j ∨ stop ≤ i →
        (threadUpvalues cs j stop upv).1.get? i = cs.get? i) ∧
      (∀ i ctx ctx', cs.get? i = some ctx →
        (threadUpvalues cs j stop upv).1.get? i = some ctx' →
        (ctx'.upvalues = ctx.upvalues ∨ ∃ u, ctx'.upvalues = ctx.upvalues ++ [u]) ∧
        ctx'.locals = ctx.locals ∧ ctx'.context_type = ctx.context_type ∧
        ctx'.chunk_index = ctx.chunk_index) ∧
      threadUpvalues (threadUpvalues cs j stop upv).1 j stop upv
        = threadUpvalues cs j stop upv := by
  induction n with
  | zero =>
    intro cs j upv hstop hfuel
    have hnl : ¬j < stop := by omega
    have hr : threadUpvalues cs j stop upv = (cs, upv) := by
      unfold threadUpvalues
      rw [dif_neg hnl]
    rw [hr]
    refine ⟨rfl, fun i _ => rfl, ?_, hr⟩
    intro i ctx ctx' h1 h2
    rw [h1] at h2
    cases h2
    exact ⟨Or.inl rfl, rfl, rfl, rfl⟩
  | succ n ih =>
    intro cs j upv hstop hfuel
    have hlt : j < stop := by omega
    have hjl : j < cs.length := lt_of_lt_of_le hlt hstop
    obtain ⟨ctx, hctx⟩ : ∃ ctx, cs.get? j = some ctx := by
      cases hg : cs.get? j with
      | none =>
        rw [List.get?_eq_none] at hg
        omega
      | some ctx => exact ⟨ctx, rfl⟩
    have hr : threadUpvalues cs j stop upv
        = threadUpvalues
            (modifyAt (fun _ => (ctx.add_upvalue (Upvalue.Upvalue upv)).2) cs j)
            (j + 1) stop (ctx.add_upvalue (Upvalue.Upvalue upv)).1 := by
      conv_lhs => rw [threadUpvalues]
      rw [dif_pos hlt, hctx]
    have hlen1 :
        (modifyAt (fun _ => (ctx.add_upvalue (Upvalue.Upvalue upv)).2) cs j).length
          = cs.length := modifyAt_length _ _ _
    have ihh := ih
      (modifyAt (fun _ => (ctx.add_upvalue (Upvalue.Upvalue upv)).2) cs j)
      (j + 1) (ctx.add_upvalue (Upvalue.Upvalue upv)).1
      (by rw [hlen1]; exact hstop) (by omega)
    have hget1 :
        (modifyAt (fun _ => (ctx.add_upvalue (Upvalue.Upvalue upv)).2) cs j).get? j
          = some (ctx.add_upvalue (Upvalue.Upvalue upv)).2 := by
      rw [modifyAt_get?_same, hctx]
      rfl
    refine ⟨?_, ?_, ?_, ?_⟩
    · rw [hr, ihh.1, hlen1]
    · intro i hi
      rw [hr, ihh.2.1 i (by omega), modifyAt_get?_ne _ _ _ _ (by omega)]
    · intro i ctx0 ctx' h0 h'
      by_cases hij : i = j
      · subst hij
        rw [hctx] at h0
        injection h0 with h0e
        subst h0e
        rw [hr] at h'
        rw [ihh.2.1 i (Or.inl (by omega)), hget1] at h'
        injection h' with he
        subst he
        have := add_upvalue_shape ctx (Upvalue.Upvalue upv)
        exact ⟨this.1.elim (fun h => Or.inl h) (fun h => Or.inr ⟨_, h⟩),
          this.2.1, this.2.2.1, this.2.2.2⟩
      · rw [hr] at h'
        exact ihh.2.2.1 i ctx0 ctx'
          (by rw [modifyAt_get?_ne _ _ _ _ hij]; exact h0) h'
    · rw [hr]
      have hpres :
          (threadUpvalues
            (modifyAt (fun _ => (ctx.add_upvalue (Upvalue.Upvalue upv)).2) cs j)
            (j + 1) stop (ctx.add_upvalue (Upvalue.Upvalue upv)).1).1.get? j
          = some (ctx.add_upvalue (Upvalue.Upvalue upv)).2 := by
        rw [ihh.2.1 j (Or.inl (by omega)), hget1]
      conv_lhs => rw [threadUpvalues]
      rw [dif_pos hlt, hpres]
      dsimp only
      rw [add_upvalue_idem ctx (Upvalue.Upvalue upv)]
      rw [modifyAt_id_self _ _ _ _ hpres rfl]
      exact ihh.2.2.2

/-- The threading loop builds the descriptor chain: entering at `j`
with a chain reaching `j - 1`, it exits with a chain reaching
`stop - 1` whose final index is the returned one. -/
theorem threadUpvalues_chain (slot k stop : Nat) (n : Nat) :
    ∀ (cs : List CompilerContext) (j upv : Nat), stop ≤ cs.length →
      stop - j = n → k + 2 ≤ j → j ≤ stop →
      UpChain cs slot k (j - 1) upv →
      UpChain (threadUpvalues cs j stop upv).1 slot k (stop - 1)
        (threadUpvalues cs j stop upv).2 := by
  induction n with
  | zero =>
    intro cs j upv hstop hfuel hk hjs hchain
    have hnl : ¬j < stop := by omega
    have hr : threadUpvalues cs j stop upv = (cs, upv) := by
      unfold threadUpvalues
      rw [dif_neg hnl]
    rw [hr]
    have hj : j = stop := by omega
    subst hj
    exact hchain
  | succ n ih =>
    intro cs j upv hstop hfuel hk hjs hchain
    have hlt : j < stop := by omega
    have hjl : j < cs.length := lt_of_lt_of_le hlt hstop
    obtain ⟨ctx, hctx⟩ : ∃ ctx, cs.get? j = some ctx := by
      cases hg : cs.get? j with
      | none =>
        rw [List.get?_eq_none] at hg
        omega
      | some ctx => exact ⟨ctx, rfl⟩
    have hr : threadUpvalues cs j stop upv
        = threadUpvalues
            (modifyAt (fun _ => (ctx.add_upvalue (Upvalue.Upvalue upv)).2) cs j)
            (j + 1) stop (ctx.add_upvalue (Upvalue.Upvalue upv)).1 := by
      conv_lhs => rw [threadUpvalues]
      rw [dif_pos hlt, hctx]
    have hlen1 :
        (modifyAt (fun _ => (ctx.add_upvalue (Upvalue.Upvalue upv)).2) cs j).length
          = cs.length := modifyAt_length _ _ _
    have hget1 :
        (modifyAt (fun _ => (ctx.add_upvalue (Upvalue.Upvalue upv)).2) cs j).get? j
          = some (ctx.add_upvalue (Upvalue.Upvalue upv)).2 := by
      rw [modifyAt_get?_same, hctx]
      rfl
    have hchain1 : UpChain
        (modifyAt (fun _ => (ctx.add_upvalue (Upvalue.Upvalue upv)).2) cs j)
        slot k ((j + 1) - 1) (ctx.add_upvalue (Upvalue.Upvalue upv)).1 := by
      have hbase : UpChain
          (modifyAt (fun _ => (ctx.add_upvalue (Upvalue.Upvalue upv)).2) cs j)
          slot k (j - 1) upv :=
        hchain.mono fun i hi => modifyAt_get?_ne _ _ _ _ (by omega)
      have hstep := UpChain.step (j - 1) upv
        (ctx.add_upvalue (Upvalue.Upvalue upv)).1
        (ctx.add_upvalue (Upvalue.Upvalue upv)).2 hbase
        (by rw [show j - 1 + 1 = j by omega]; exact hget1)
        (add_upvalue_find ctx (Upvalue.Upvalue upv))
      rw [show j - 1 + 1 = j by omega] at hstep
      rw [show (j + 1) - 1 = j by omega]
      exact hstep
    rw [hr]
    exact ih _ (j + 1) _ (by rw [hlen1]; exact hstop) (by omega) (by omega)
      (by omega) hchain1

/-- The search loop skips every enclosing context in which the name is
not a local. -/
theorem resolveUpvalueFrom_skip (c : Compiler) (name : String) (k : Nat) :
    ∀ m, k ≤ m → m + 1 < c.contexts.length →
      (∀ i, k < i → i + 1 < c.contexts.length →
        ∀ ctx, c.contexts.get? i = some ctx → ctx.locals.get name = none) →
      resolveUpvalueFrom c name m = resolveUpvalueFrom c name k := by
  intro m
  induction m with
  | zero =>
    intro hkm _ _
    have : k = 0 := by omega
    subst this
    rfl
  | succ m ih =>
    intro hkm hlen habove
    by_cases hkm1 : k = m + 1
    · subst hkm1
      rfl
    · obtain ⟨ctx, hctx⟩ : ∃ ctx, c.contexts.get? (m + 1) = some ctx := by
        cases hg : c.contexts.get? (m + 1) with
        | none =>
          rw [List.get?_eq_none] at hg
          omega
        | some ctx => exact ⟨ctx, rfl⟩
      have hnone : ctx.locals.get name = none :=
        habove (m + 1) (by omega) hlen ctx hctx
      have hres : ctx.resolve_local name = some none := by
        unfold CompilerContext.resolve_local
        rw [hnone]
      have hstep : resolveUpvalueFrom c name (m + 1)
          = resolveUpvalueFrom c name m := by
        conv_lhs => rw [resolveUpvalueFrom]
        rw [hctx]
        dsimp only
        rw [hres]
        dsimp only
        rw [if_neg (by omega : ¬m + 1 = 0),
          show m + 1 - 1 = m from rfl]
      rw [hstep]
      exact ih (by omega) (by omega) habove

/-- **C1.** When a name is not a local of the current context but is an
initialized local (slot `slotv`) of the innermost enclosing context `k`
(with no context in between holding the name at all), `resolve_upvalue`
succeeds and: marks that local captured in context `k`; puts an
`Upvalue::Local(slotv)` descriptor in context `k + 1` and threads
`Upvalue::Upvalue(index)` descriptors through contexts `k + 2` up to
the current one (the returned index is the top of that chain, each link
sitting at its first occurrence in its context's descriptor list); each
descriptor list grows by at most one entry and nothing else changes;
and resolving the same name again returns the same upvalue index
without adding any descriptor or changing the state at all. -/
theorem c1_resolve_upvalue (c : Compiler) (name : String) (k slotv : Nat)
    (ctxK : CompilerContext)
    (hk : k + 1 < c.contexts.length)
    (hctxK : c.contexts.get? k = some ctxK)
    (hres : ctxK.resolve_local name = some (some slotv))
    (hwf : ∀ p x, ctxK.locals.stack.get? p = some x → x.slot = p)
    (habove : ∀ i, k < i → i + 1 < c.contexts.length →
      ∀ ctx, c.contexts.get? i = some ctx → ctx.locals.get name = none) :
    ∃ c' idx,
      c.resolve_upvalue name = (c', some idx) ∧
      c'.errors = c.errors ∧ c'.module = c.module ∧
      c'.contexts.length = c.contexts.length ∧
      (∃ loc, ctxK.locals.get name = some loc ∧ loc.slot = slotv ∧
        ∃ ctxK', c'.contexts.get? k = some ctxK' ∧
          ctxK'.locals.stack.get? slotv = some { loc with is_upvalue := true } ∧
          ctxK'.upvalues = ctxK.upvalues) ∧
      UpChain c'.contexts slotv k (c.contexts.length - 1) idx ∧
      (∀ i ctx ctx', c.contexts.get? i = some ctx →
        c'.contexts.get? i = some ctx' →
        (ctx'.upvalues = ctx.upvalues ∨ ∃ u, ctx'.upvalues = ctx.upvalues ++ [u]) ∧
        ctx'.context_type = ctx.context_type ∧
        ctx'.chunk_index = ctx.chunk_index ∧
        (i ≠ k → ctx'.locals = ctx.locals)) ∧
      c'.resolve_upvalue name = (c', some idx) := by
  obtain ⟨ctxNext, hctxNext⟩ : ∃ x, c.contexts.get? (k + 1) = some x := by
    cases hg : c.contexts.get? (k + 1) with
    | none =>
      rw [List.get?_eq_none] at hg
      omega
    | some x => exact ⟨x, rfl⟩
  obtain ⟨loc, hloc, hlinit, hlslot⟩ := resolve_local_inv ctxK name slotv hres
  set cs1 := modifyAt (fun t => { t with locals := t.locals.mark_captured slotv })
    c.contexts k with hcs1
  set r := ctxNext.add_upvalue (Upvalue.Local slotv) with hr
  set cs2 := modifyAt (fun _ => r.2) cs1 (k + 1) with hcs2
  set T := threadUpvalues cs2 (k + 2) c.contexts.length r.1 with hT
  have hlen1 : cs1.length = c.contexts.length := modifyAt_length _ _ _
  have hlen2 : cs2.length = c.contexts.length :=
    (modifyAt_length _ _ _).trans hlen1
  have hcs1k : cs1.get? k
      = some { ctxK with locals := ctxK.locals.mark_captured slotv } := by
    rw [hcs1, modifyAt_get?_same, hctxK]
    rfl
  have hcs1k1 : cs1.get? (k + 1) = some ctxNext := by
    rw [hcs1, modifyAt_get?_ne _ _ _ _ (by omega)]
    exact hctxNext
  have hcs2k1 : cs2.get? (k + 1) = some r.2 := by
    rw [hcs2, modifyAt_get?_same, hcs1k1]
    rfl
  have hcs2k : cs2.get? k
      = some { ctxK with locals := ctxK.locals.mark_captured slotv } := by
    rw [hcs2, modifyAt_get?_ne _ _ _ _ (by omega)]
    exact hcs1k
  have hspec := threadUpvalues_spec c.contexts.length
    (c.contexts.length - (k + 2)) cs2 (k + 2) r.1 (le_of_eq hlen2.symm) rfl
  rw [← hT] at hspec
  have hchainT : UpChain T.1 slotv k (c.contexts.length - 1) T.2 := by
    rw [hT]
    exact threadUpvalues_chain slotv k c.contexts.length
      (c.contexts.length - (k + 2)) cs2 (k + 2) r.1 (le_of_eq hlen2.symm) rfl
      (le_refl _) (by omega)
      (UpChain.base r.2 r.1 hcs2k1 (add_upvalue_find ctxNext (Upvalue.Local slotv)))
  have hstep : resolveUpvalueFrom c name k
      = ({ c with contexts := T.1 }, some T.2) := by
    conv_lhs => rw [resolveUpvalueFrom]
    rw [hctxK]
    dsimp only
    rw [hres]
    dsimp only
    rw [← hcs1, hcs1k1]
  have hentry : c.resolve_upvalue name = ({ c with contexts := T.1 }, some T.2) := by
    unfold Compiler.resolve_upvalue
    rw [if_neg (by omega : ¬c.contexts.length ≤ 1)]
    rw [resolveUpvalueFrom_skip c name k (c.contexts.length - 2) (by omega)
      (by omega) habove]
    exact hstep
  have hTk : T.1.get? k
      = some { ctxK with locals := ctxK.locals.mark_captured slotv } := by
    rw [hspec.2.1 k (Or.inl (by omega))]
    exact hcs2k
  have hTk1 : T.1.get? (k + 1) = some r.2 := by
    rw [hspec.2.1 (k + 1) (Or.inl (by omega))]
    exact hcs2k1
  have hTlen : T.1.length = c.contexts.length := hspec.1.trans hlen2
  have hshape : ∀ i ctx ctx', c.contexts.get? i = some ctx →
      T.1.get? i = some ctx' →
      (ctx'.upvalues = ctx.upvalues ∨ ∃ u, ctx'.upvalues = ctx.upvalues ++ [u]) ∧
      ctx'.context_type = ctx.context_type ∧
      ctx'.chunk_index = ctx.chunk_index ∧ (i ≠ k → ctx'.locals = ctx.locals) := by
    intro i ctx ctx' hci hci'
    by_cases hik : i = k
    · subst hik
      rw [hctxK] at hci
      injection hci with he
      subst he
      rw [hTk] at hci'
      injection hci' with he'
      subst he'
      exact ⟨Or.inl rfl, rfl, rfl, fun hne => absurd rfl hne⟩
    · by_cases hik1 : i = k + 1
      · subst hik1
        rw [hctxNext] at hci
        injection hci with he
        subst he
        rw [hTk1] at hci'
        injection hci' with he'
        subst he'
        have hsh := add_upvalue_shape ctxNext (Upvalue.Local slotv)
        exact ⟨hsh.1.elim Or.inl (fun h => Or.inr ⟨_, h⟩), hsh.2.2.1,
          hsh.2.2.2, fun _ => hsh.2.1⟩
      · have hcs2i : cs2.get? i = c.contexts.get? i := by
          rw [hcs2, modifyAt_get?_ne _ _ _ _ hik1, hcs1,
            modifyAt_get?_ne _ _ _ _ hik]
        have := hspec.2.2.1 i ctx ctx' (by rw [hcs2i]; exact hci) hci'
        exact ⟨this.1, this.2.2.1, this.2.2.2, fun _ => this.2.1⟩
  refine ⟨{ c with contexts := T.1 }, T.2, hentry, rfl, rfl, hTlen, ?_, hchainT,
    hshape, ?_⟩
  · refine ⟨loc, hloc, hlslot,
      { ctxK with locals := ctxK.locals.mark_captured slotv }, hTk, ?_, rfl⟩
    have hhit := mark_captured_hits ctxK.locals name loc hwf hloc
    show (ctxK.locals.mark_captured slotv).stack.get? slotv = _
    rw [← hlslot]
    exact hhit
  · have habove' : ∀ i, k < i →
        i + 1 < ({ c with contexts := T.1 } : Compiler).contexts.length →
        ∀ ctx', ({ c with contexts := T.1 } : Compiler).contexts.get? i = some ctx' →
          ctx'.locals.get name = none := by
      intro i hki hi1 ctx' hget'
      obtain ⟨ctx, hctx⟩ : ∃ x, c.contexts.get? i = some x := by
        cases hg : c.contexts.get? i with
        | none =>
          rw [List.get?_eq_none] at hg
          simp only at hi1
          omega
        | some x => exact ⟨x, rfl⟩
      have hleq := (hshape i ctx ctx' hctx hget').2.2.2 (by omega)
      rw [hleq]
      exact habove i hki (by simp only at hi1; omega) ctx hctx
    have hres' : ({ ctxK with locals := ctxK.locals.mark_captured slotv } :
        CompilerContext).resolve_local name = some (some slotv) :=
      (resolve_local_mark_captured ctxK name slotv).trans hres
    have hcs1' : modifyAt (fun t => { t with locals := t.locals.mark_captured slotv })
        T.1 k = T.1 := by
      apply modifyAt_id_self _ _ _ _ hTk
      show ({ ctxK with
          locals := (ctxK.locals.mark_captured slotv).mark_captured slotv } :
        CompilerContext) = _
      rw [mark_captured_idem]
    have hidem : r.2.add_upvalue (Upvalue.Local slotv) = r := by
      rw [hr]
      exact add_upvalue_idem ctxNext _
    have hidemT : threadUpvalues T.1 (k + 2) c.contexts.length r.1 = T :=
      hspec.2.2.2
    have hstep' : resolveUpvalueFrom { c with contexts := T.1 } name k
        = ({ c with contexts := T.1 }, some T.2) := by
      conv_lhs => rw [resolveUpvalueFrom]
      rw [show ({ c with contexts := T.1 } : Compiler).contexts.get? k
        = some { ctxK with locals := ctxK.locals.mark_captured slotv } from hTk]
      dsimp only
      rw [hres']
      dsimp only
      rw [hcs1', hTk1]
      dsimp only
      rw [hidem]
      rw [modifyAt_id_self _ _ _ _ hTk1 rfl]
      rw [show ({ c with contexts := T.1 } : Compiler).contexts.length
        = c.contexts.length from hTlen]
      rw [hidemT]
    show Compiler.resolve_upvalue _ name = _
    unfold Compiler.resolve_upvalue
    rw [if_neg (by simp only; omega : ¬({ c with contexts := T.1 } :
      Compiler).contexts.length ≤ 1)]
    rw [show ({ c with contexts := T.1 } : Compiler).contexts.length - 2
      = T.1.length - 2 from rfl]
    rw [resolveUpvalueFrom_skip { c with contexts := T.1 } name k
      (T.1.length - 2) (by omega) (by simp only; omega) habove']
    exact hstep'

/-- Witness for **C1**: three nested contexts where only the outermost
declares the (initialized) local `"x"`; resolving from the innermost
context succeeds and is idempotent. -/
theorem c1_resolve_upvalue_witness :
    ∃ c' idx,
      (⟨Module.new,
        [⟨ContextType.TopLevel, 0, ⟨[⟨"x", 0, 0, true, false⟩], 0⟩, []⟩,
          ⟨ContextType.Function, 1, Locals.new, []⟩,
          ⟨ContextType.Function, 2, Locals.new, []⟩], [], [], [], []⟩ :
        Compiler).resolve_upvalue "x" = (c', some idx) ∧
      c'.resolve_upvalue "x" = (c', some idx) := by
  obtain ⟨c', idx, h1, _, _, _, _, _, _, h8⟩ :=
    c1_resolve_upvalue
      ⟨Module.new,
        [⟨ContextType.TopLevel, 0, ⟨[⟨"x", 0, 0, true, false⟩], 0⟩, []⟩,
          ⟨ContextType.Function, 1, Locals.new, []⟩,
          ⟨ContextType.Function, 2, Locals.new, []⟩], [], [], [], []⟩
      "x" 0 0 ⟨ContextType.TopLevel, 0, ⟨[⟨"x", 0, 0, true, false⟩], 0⟩, []⟩
      (by decide) rfl (by decide)
      (by
        intro p x h
        cases p with
        | zero =>
          cases h
          rfl
        | succ n => simp [List.get?] at h)
      (by
        intro i h1 h2 ctx hctx
        have h2' : i + 1 < 3 := by simpa using h2
        have hi : i = 1 := by omega
        subst hi
        cases hctx
        rfl)
  exact ⟨c', idx, h1, h8⟩

theorem lookup_append_single {α β : Type} [BEq α] [LawfulBEq α]
    (l : List (α × β)) (k : α) (v : β) (h : l.lookup k = none) :
    (l ++ [(k, v)]).lookup k = some v := by
  induction l with
  | nil => simp [List.lookup]
  | cons x rest ih =>
    simp only [List.lookup, List.cons_append] at h ⊢
    cases hx : (k == x.1)
    · rw [hx] at h
      simp only [hx]
      exact ih h
    · rw [hx] at h
      cases h

/-- **C6.** Pool interning is idempotent: re-inserting the same number
bit pattern, string literal, or identifier returns the index of the
first insertion and leaves the compiler (hence the module pools)
unchanged; `Interner::intern` likewise returns the same `Symbol` for
the same string without changing the interner. -/
theorem c6_interning_idempotent (c : CompilerModel.Compiler) (bits : Nat)
    (s ident istr : String) (intr : InternerModel.Interner) :
    ((c.add_number bits).1.add_number bits = c.add_number bits) ∧
    ((c.add_string s).1.add_string s = c.add_string s) ∧
    ((c.add_identifier ident).1.add_identifier ident = c.add_identifier ident) ∧
    (((intr.intern istr).2.intern istr) = ((intr.intern istr).1, (intr.intern istr).2)) := by
  refine ⟨?_, ?_, ?_, ?_⟩
  · unfold Compiler.add_number
    cases h : c.numbers.lookup bits with
    | some index => simp [h]
    | none => simp [h, Module.add_number, lookup_append_single _ _ _ h]
  · unfold Compiler.add_string
    cases h : c.strings.lookup s with
    | some index => simp [h]
    | none => simp [h, Module.add_string, lookup_append_single _ _ _ h]
  · unfold Compiler.add_identifier
    cases h : c.identifiers.lookup ident with
    | some index => simp [h]
    | none => simp [h, Module.add_identifier, lookup_append_single _ _ _ h]
  · unfold InternerModel.Interner.intern
    cases h : intr.map.lookup istr with
    | some symbol => simp [h]
    | none => simp [h, lookup_append_single _ _ _ h]

theorem modifyLast_append_singleton (g : CompilerContext → CompilerContext)
    (l : List CompilerContext) (x : CompilerContext) :
    modifyLast g (l ++ [x]) = l ++ [g x] := by
  induction l with
  | nil => rfl
  | cons y rest ih =>
    cases rest with
    | nil => rfl
    | cons z more =>
      simp only [List.cons_append, modifyLast] at ih ⊢
      exact congrArg (y :: ·) ih

/-- **C4 (amended).** Every context opened by `with_context` reserves
local slot 0, marked initialized before the body runs: named `""` for
`Function` and named `"this"` for `Method`, `Initializer` *and*
`TopLevel`; the body is then run on exactly that state and the context
closed. -/
theorem c4_with_context_reserves_slot0 (c : Compiler) (ct : ContextType)
    (f : Compiler → Compiler) :
    c.with_context ct f =
      (f { c with
            module :=
              { c.module with chunks := c.module.chunks ++ [Bytecode.Chunk.new] }
            contexts := c.contexts ++
              [⟨ct, c.module.chunks.length,
                ⟨[⟨if ct = ContextType.Function then "" else "this",
                  0, 0, true, false⟩], 0⟩, []⟩] }).end_context := by
  unfold Compiler.with_context Compiler.begin_context Compiler.add_local
  unfold Compiler.mark_local_initialized Module.add_chunk
  cases ct <;>
    simp [modifyLast_append_singleton, CompilerContext.new, Locals.insert,
      Locals.get_at_depth, Locals.new, Locals.mark_initialized, setInitializedLast]

/-- Counterexample for **C4** as stated: opening a `TopLevel` context
reserves slot 0 under the name `"this"`, not as an empty (unnamed)
reserve.  The body probe records the names of the context's locals into
the identifier pool, which survives `end_context`. -/
theorem c4_counterexample :
    (Compiler.with_context Compiler.new ContextType.TopLevel
        (fun mid =>
          { mid with
            module :=
              { mid.module with
                identifiers := mid.module.identifiers ++
                  ((mid.contexts.getLast?.map fun ctx =>
                    ctx.locals.stack.map Local.name).getD []) } })).1.module.identifiers
      = ["this"] ∧ ("this" : String) ≠ "" := by
  constructor
  · rfl
  · decide

theorem take_drop_findIdxD (p : Local → Bool) (xs : List Local) :
    xs.take ((xs.findIdx? p).getD xs.length) = xs.takeWhile (fun x => !p x) ∧
    xs.drop ((xs.findIdx? p).getD xs.length) = xs.dropWhile (fun x => !p x) := by
  induction xs with
  | nil => simp
  | cons x rest ih =>
    rw [List.findIdx?_cons, List.findIdx?_succ]
    cases hp : p x
    · rw [if_neg (by simp [hp])]
      have h1 : (!p x) = true := by simp [hp]
      simp only [List.takeWhile_cons, List.dropWhile_cons, h1, if_true]
      cases hfi : rest.findIdx? p with
      | none =>
        rw [hfi, Option.getD_none] at ih
        simp only [hfi, Option.map_none', Option.getD_none, List.length_cons,
          List.take_succ_cons, List.drop_succ_cons]
        exact ⟨by rw [ih.1], by rw [ih.2]⟩
      | some i =>
        rw [hfi, Option.getD_some] at ih
        simp only [hfi, Option.map_some', Option.getD_some,
          List.take_succ_cons, List.drop_succ_cons]
        exact ⟨by rw [ih.1], by rw [ih.2]⟩
    · simp [hp, List.takeWhile_cons, List.dropWhile_cons]

theorem takeWhile_eq_filter_of_sorted (d : Nat) (xs : List Local)
    (hsort : xs.Pairwise fun a b => a.depth ≤ b.depth)
    (hbound : ∀ loc ∈ xs, loc.depth ≤ d) (hpos : 0 < d) :
    xs.takeWhile (fun x => !decide (d - 1 < x.depth))
        = xs.filter (fun loc => decide (loc.depth < d)) ∧
    xs.dropWhile (fun x => !decide (d - 1 < x.depth))
        = xs.filter (fun loc => loc.depth == d) := by
  induction xs with
  | nil => simp
  | cons x rest ih =>
    rw [List.pairwise_cons] at hsort
    have hxd : x.depth ≤ d := hbound x (List.mem_cons_self x rest)
    rcases lt_or_le x.depth d with hlt | hge
    · have hc : (!decide (d - 1 < x.depth)) = true := by
        simp only [Bool.not_eq_true', decide_eq_false_iff_not]
        omega
      have ihr := ih hsort.2 fun loc hm => hbound loc (List.mem_cons_of_mem _ hm)
      rw [List.takeWhile_cons, List.dropWhile_cons]
      simp only [hc, if_true]
      constructor
      · rw [List.filter_cons_of_pos (by simpa using hlt), ihr.1]
      · rw [List.filter_cons_of_neg (by simp only [beq_iff_eq]; omega), ihr.2]
    · have hxd' : x.depth = d := by omega
      have hc : (!decide (d - 1 < x.depth)) = false := by
        simp only [Bool.not_eq_false', decide_eq_true_eq]
        omega
      have hall : ∀ loc ∈ rest, loc.depth = d := by
        intro loc hm
        have h1 := hsort.1 loc hm
        have h2 := hbound loc (List.mem_cons_of_mem _ hm)
        omega
      rw [List.takeWhile_cons, List.dropWhile_cons]
      simp only [hc, Bool.false_eq_true, if_false]
      constructor
      · rw [List.filter_cons_of_neg (by simp only [decide_eq_true_eq]; omega)]
        rw [List.filter_eq_nil_iff.mpr]
        intro loc hm
        simp only [decide_eq_true_eq]
        have := hall loc hm
        omega
      · rw [List.filter_cons_of_pos (by simp [hxd'])]
        congr 1
        rw [List.filter_eq_self.mpr]
        intro loc hm
        simp [hall loc hm]

/-- `Locals::end_scope` under the compiler's invariants (depths weakly
increasing along the stack and bounded by the current depth): it keeps
exactly the locals of the outer scopes and removes exactly the locals
of the scope being ended. -/
theorem end_scope_spec (l : Locals)
    (hsort : l.stack.Pairwise fun a b => a.depth ≤ b.depth)
    (hbound : ∀ loc ∈ l.stack, loc.depth ≤ l.scope_depth)
    (hpos : 0 < l.scope_depth) :
    l.end_scope =
      (⟨l.stack.filter fun loc => decide (loc.depth < l.scope_depth),
        l.scope_depth - 1⟩,
       l.stack.filter fun loc => loc.depth == l.scope_depth) := by
  unfold Locals.end_scope
  have h1 := take_drop_findIdxD (fun loc => decide (l.scope_depth - 1 < loc.depth)) l.stack
  have h2 := takeWhile_eq_filter_of_sorted l.scope_depth l.stack hsort hbound hpos
  refine Prod.ext ?_ ?_
  · show (⟨_, _⟩ : Locals) = ⟨_, _⟩
    rw [Locals.mk.injEq]
    exact ⟨h1.1.trans h2.1, rfl⟩
  · exact h1.2.trans h2.2

theorem modifyLast_eq_dropLast_append (f : CompilerContext → CompilerContext)
    (l : List CompilerContext) (x : CompilerContext) (h : l.getLast? = some x) :
    modifyLast f l = l.dropLast ++ [f x] := by
  induction l with
  | nil => cases h
  | cons y rest ih =>
    cases rest with
    | nil =>
      simp only [List.getLast?_singleton, Option.some.injEq] at h
      subst h
      rfl
    | cons z more =>
      rw [List.getLast?_cons_cons] at h
      have := ih h
      simp only [modifyLast, List.dropLast_cons₂, List.cons_append]
      rw [this]

theorem set_getD_self (l : List Bytecode.Chunk) (i : Nat) (hi : i < l.length) :
    l.set i (l.getD i Bytecode.Chunk.new) = l := by
  induction l generalizing i with
  | nil => simp at hi
  | cons x rest ih =>
    cases i with
    | zero => simp [List.getD]
    | succ j =>
      simp only [List.length_cons] at hi
      simp only [List.set, List.getD, List.get?]
      have := ih j (by omega)
      simp only [List.getD] at this
      rw [this]

theorem emit_fold (L : List Local) (c : Compiler) (ci : Nat)
    (hci : c.current_chunk_index = ci) (hlen : ci < c.module.chunks.length) :
    L.foldl
      (fun acc loc =>
        (acc.add_u8 (if loc.is_upvalue then opcodeCLOSE_UPVALUE else opcodePOP)).1)
      c =
    { c with
      module :=
        { c.module with
          chunks := c.module.chunks.set ci
            ⟨(c.module.chunks.getD ci Bytecode.Chunk.new).instructions ++
              L.map fun loc =>
                if loc.is_upvalue then opcodeCLOSE_UPVALUE else opcodePOP⟩ } } := by
  induction L generalizing c with
  | nil =>
    simp only [List.foldl_nil, List.map_nil, List.append_nil]
    have : c.module.chunks.set ci
        ⟨(c.module.chunks.getD ci Bytecode.Chunk.new).instructions⟩
        = c.module.chunks := by
      have hx : (⟨(c.module.chunks.getD ci Bytecode.Chunk.new).instructions⟩ :
          Bytecode.Chunk) = c.module.chunks.getD ci Bytecode.Chunk.new := rfl
      rw [hx]
      exact set_getD_self _ _ hlen
    rw [this]
  | cons loc L ih =>
    rw [List.foldl_cons]
    have hbyte :
        (if loc.is_upvalue then opcodeCLOSE_UPVALUE else opcodePOP) % 256
          = if loc.is_upvalue then opcodeCLOSE_UPVALUE else opcodePOP := by
      cases loc.is_upvalue <;> rfl
    have hstep : (c.add_u8 (if loc.is_upvalue then opcodeCLOSE_UPVALUE else opcodePOP)).1
        = { c with
            module :=
              { c.module with
                chunks := c.module.chunks.set ci
                  ⟨(c.module.chunks.getD ci Bytecode.Chunk.new).instructions ++
                    [if loc.is_upvalue then opcodeCLOSE_UPVALUE else opcodePOP]⟩ } } := by
      simp only [Compiler.add_u8, hci, Bytecode.Chunk.add_u8, hbyte]
    rw [hstep]
    rw [ih _ (by exact hci) (by simpa using hlen)]
    have hgetD :
        ((c.module.chunks.set ci
            ⟨(c.module.chunks.getD ci Bytecode.Chunk.new).instructions ++
              [if loc.is_upvalue then opcodeCLOSE_UPVALUE else opcodePOP]⟩).getD ci
          Bytecode.Chunk.new)
          = ⟨(c.module.chunks.getD ci Bytecode.Chunk.new).instructions ++
              [if loc.is_upvalue then opcodeCLOSE_UPVALUE else opcodePOP]⟩ := by
      simp only [List.getD, List.get?_eq_getElem?]
      rw [List.getElem?_set_eq_of_lt _ hlen]
      rfl
    rw [hgetD, List.set_set]
    simp [List.append_assoc]

/-- **C3.** Under the compiler's stack invariants (local depths weakly
increasing and bounded by the current scope depth), `end_scope` removes
exactly the locals of the scope being ended and appends to the current
chunk exactly one opcode per removed local — `CLOSE_UPVALUE` for a
captured local, `POP` otherwise — in reverse declaration order, and
changes nothing else: other chunks, pools, contexts below the current
locals update, and diagnostics are all untouched. -/
theorem c3_end_scope (c : Compiler) (ctx : CompilerContext)
    (hlast : c.contexts.getLast? = some ctx)
    (hsort : ctx.locals.stack.Pairwise fun a b => a.depth ≤ b.depth)
    (hbound : ∀ loc ∈ ctx.locals.stack, loc.depth ≤ ctx.locals.scope_depth)
    (hpos : 0 < ctx.locals.scope_depth)
    (hci : ctx.chunk_index < c.module.chunks.length) :
    c.end_scope =
      { c with
        contexts := c.contexts.dropLast ++
          [{ ctx with
              locals :=
                ⟨ctx.locals.stack.filter fun loc =>
                    decide (loc.depth < ctx.locals.scope_depth),
                  ctx.locals.scope_depth - 1⟩ }]
        module :=
          { c.module with
            chunks := c.module.chunks.set ctx.chunk_index
              ⟨(c.module.chunks.getD ctx.chunk_index Bytecode.Chunk.new).instructions ++
                ((ctx.locals.stack.filter fun loc =>
                    loc.depth == ctx.locals.scope_depth).reverse.map fun loc =>
                  if loc.is_upvalue then opcodeCLOSE_UPVALUE else opcodePOP)⟩ } } := by
  unfold Compiler.end_scope
  rw [hlast]
  dsimp only
  rw [end_scope_spec ctx.locals hsort hbound hpos]
  have hml :
      modifyLast (fun t => { t with locals := (t.locals.end_scope).1 }) c.contexts
        = c.contexts.dropLast ++
          [{ ctx with
              locals :=
                ⟨ctx.locals.stack.filter fun loc =>
                    decide (loc.depth < ctx.locals.scope_depth),
                  ctx.locals.scope_depth - 1⟩ }] := by
    rw [modifyLast_eq_dropLast_append _ _ _ hlast,
      end_scope_spec ctx.locals hsort hbound hpos]
  rw [hml]
  rw [emit_fold _ _ ctx.chunk_index
    (by simp [Compiler.current_chunk_index, List.getLast?_concat])
    (by simpa using hci)]

/-- Witness for **C3**: one context at scope depth 1 holding a plain
local `a` and a captured local `b`; ending the scope drops both and
emits `CLOSE_UPVALUE` (for `b`) then `POP` (for `a`). -/
theorem c3_end_scope_witness :
    (Compiler.end_scope
        ⟨{ Module.new with chunks := [Bytecode.Chunk.new] },
          [⟨ContextType.TopLevel, 0,
            ⟨[⟨"a", 1, 0, true, false⟩, ⟨"b", 1, 1, true, true⟩], 1⟩, []⟩],
          [], [], [], []⟩).module.chunks
      = [⟨[opcodeCLOSE_UPVALUE, opcodePOP]⟩] ∧
    (Compiler.end_scope
        ⟨{ Module.new with chunks := [Bytecode.Chunk.new] },
          [⟨ContextType.TopLevel, 0,
            ⟨[⟨"a", 1, 0, true, false⟩, ⟨"b", 1, 1, true, true⟩], 1⟩, []⟩],
          [], [], [], []⟩).contexts
      = [⟨ContextType.TopLevel, 0, ⟨[], 0⟩, []⟩] := by
  have h := c3_end_scope
    ⟨{ Module.new with chunks := [Bytecode.Chunk.new] },
      [⟨ContextType.TopLevel, 0,
        ⟨[⟨"a", 1, 0, true, false⟩, ⟨"b", 1, 1, true, true⟩], 1⟩, []⟩],
      [], [], [], []⟩
    ⟨ContextType.TopLevel, 0,
      ⟨[⟨"a", 1, 0, true, false⟩, ⟨"b", 1, 1, true, true⟩], 1⟩, []⟩
    (by decide) (by decide) (by decide) (by decide) (by decide)
  rw [h]
  exact ⟨by decide, by decide⟩

end CompilerModel

namespace TableModel

/-- `Entry` in `table.rs`: a `Symbol` key (`0` = `Symbol::invalid()`,
the empty-bucket sentinel) and a `Value`. -/
structure Entry where
  key : Nat
  value : ValueModel.Value
deriving DecidableEq, Repr

/-- `Entry::new` -/
def Entry.new : Entry := ⟨0, ValueModel.Value.NIL⟩

/-- `Table` in `table.rs`. -/
structure Table where
  count : Nat
  capacity : Nat
  max_capacity : Nat
  entries : List Entry
deriving DecidableEq, Repr

/-- `(capacity as f32 * MAX_LOAD) as usize` with `MAX_LOAD = 0.75`:
for a power-of-two capacity, `0.75 · 2^k = 3 · 2^(k-2)` has two
significand bits, so the `f32` arithmetic is exact and the truncating
cast yields exactly `3 * capacity / 4`. -/
def maxLoadOf (capacity : Nat) : Nat := 3 * capacity / 4

/-- `Table::new` (`INITIAL_CAPACITY = 8`). -/
def Table.new : Table := ⟨0, 8, maxLoadOf 8, List.replicate 8 Entry.new⟩

/-- One probe step at a time: stop on a bucket holding `key` or the
invalid sentinel, else advance to `(index + 1) & (capacity - 1)`.  The
Rust loop is unbounded; with `capacity` fuel the walk visits every
bucket (power-of-two capacity), so the fuel is enough whenever a
terminating bucket exists — which the table invariant guarantees.
`none` models the diverging case. -/
def findEntryAux (entries : List Entry) (cap key : Nat) : Nat → Nat → Option Nat
  | _, 0 => none
  | index, fuel + 1 =>
    match entries.get? index with
    | none => none
    | some e =>
      if e.key = key ∨ e.key = 0 then some index
      else findEntryAux entries cap key ((index + 1) &&& (cap - 1)) fuel

/-- `find_entry` in `table.rs`, starting at `key & (capacity - 1)`. -/
def find_entry (capacity : Nat) (entries : List Entry) (key : Nat) : Option Nat :=
  findEntryAux entries capacity key (key &&& (capacity - 1)) capacity

/-- One iteration of the rehash loop in `Table::adjust_capacity`:
re-probe the entry's key in the new array and write the entry there.
(`none` from `find_entry` would mean the unbounded Rust loop diverges;
under the invariant it never happens, and the model skips such an
entry.) -/
def rehashStep (cap : Nat) (acc : List Entry) (e : Entry) : List Entry :=
  match find_entry cap acc e.key with
  | none => acc
  | some idx => acc.set idx e

/-- `Table::adjust_capacity`: double (or restore the initial 8),
rehash every entry of the old array — including sentinel buckets, which
land on an empty bucket and write the sentinel back — and store the new
load limit. -/
def Table.adjust_capacity (t : Table) : Table :=
  { t with
    capacity := if t.capacity < 8 then 8 else t.capacity * 2
    max_capacity := maxLoadOf (if t.capacity < 8 then 8 else t.capacity * 2)
    entries :=
      t.entries.foldl
        (rehashStep (if t.capacity < 8 then 8 else t.capacity * 2))
        (List.replicate (if t.capacity < 8 then 8 else t.capacity * 2) Entry.new) }

/-- `Table::set`: grow when `count + 1 > max_capacity`, probe, record
whether the bucket was empty, bump the count for a new key, write the
entry.  Returns `none` only when probing would diverge (never, under
the invariant). -/
def Table.set (t : Table) (key : Nat) (value : ValueModel.Value) :
    Option (Bool × Table) :=
  (fun t =>
    match find_entry t.capacity t.entries key with
    | none => none
    | some index =>
      match t.entries.get? index with
      | none => none
      | some entry =>
        some (entry.key = 0,
          { t with
            count := if entry.key = 0 then t.count + 1 else t.count
            entries := t.entries.set index ⟨key, value⟩ }))
  (if t.count + 1 > t.max_capacity then t.adjust_capacity else t)

/-- `Table::get`: `None` on an empty table or an empty bucket, else the
bucket's value. -/
def Table.get (t : Table) (key : Nat) : Option (Option ValueModel.Value) :=
  if t.count = 0 then some none
  else
    match find_entry t.capacity t.entries key with
    | none => none
    | some index =>
      match t.entries.get? index with
      | none => none
      | some entry => some (if entry.key = 0 then none else some entry.value)

/-- Tables reachable from `Table::new` by `set` calls with non-sentinel
keys (`get` does not change the table). -/
inductive Reach : Table → Prop where
  | new : Reach Table.new
  | set (t t' : Table) (k : Nat) (v : ValueModel.Value) (b : Bool) :
      Reach t → k ≠ 0 → t.set k v = some (b, t') → Reach t'

/-- A key occupies some bucket. -/
def hasKey (t : Table) (k : Nat) : Prop :=
  ∃ i e, t.entries.get? i = some e ∧ e.key = k

/-- Cyclic probe distance from `home` to `i` (both `< cap`). -/
def probeDist (cap home i : Nat) : Nat := (i + cap - home) % cap

/-- The number of occupied buckets. -/
def occCount (es : List Entry) : Nat := (es.filter fun e => e.key ≠ 0).length

/-- Occupied buckets hold pairwise distinct keys. -/
def ND (es : List Entry) : Prop :=
  ∀ i j ei ej, es.get? i = some ei → es.get? j = some ej →
    ei.key ≠ 0 → ei.key = ej.key → i = j

/-- The linear-probing invariant: every bucket on the cyclic path from
an occupied key's home slot to its actual slot is occupied (no
deletions ever punch holes into probe paths). -/
def PP (cap : Nat) (es : List Entry) : Prop :=
  ∀ i ei, es.get? i = some ei → ei.key ≠ 0 →
    ∀ d, d < probeDist cap (ei.key % cap) i →
      ∃ ex, es.get? ((ei.key % cap + d) % cap) = some ex ∧ ex.key ≠ 0

/-- The invariant of every reachable table. -/
structure Inv (t : Table) : Prop where
  cap_pow : ∃ m, 3 ≤ m ∧ t.capacity = 2 ^ m
  len_eq : t.entries.length = t.capacity
  max_eq : t.max_capacity = 3 * t.capacity / 4
  count_eq : t.count = occCount t.entries
  count_le : t.count ≤ t.max_capacity
  keys_nodup : ND t.entries
  probe_path : PP t.capacity t.entries

theorem probe_cover (cap home j : Nat) (hcap : 0 < cap) (hhome : home < cap)
    (hj : j < cap) : (home + probeDist cap home j) % cap = j := by
  unfold probeDist
  rw [Nat.add_mod_mod]
  have h1 : home ≤ j + cap := by omega
  have h2 : home + (j + cap - home) = j + cap := by omega
  rw [h2, Nat.add_mod_right]
  exact Nat.mod_eq_of_lt hj

theorem probeDist_lt (cap home i : Nat) (hcap : 0 < cap) :
    probeDist cap home i < cap := Nat.mod_lt _ hcap

theorem probe_inj (cap home d d' : Nat) (hd : d < cap) (hd' : d' < cap)
    (h : (home + d) % cap = (home + d') % cap) : d = d' := by
  rcases le_total d d' with hle | hle
  · have hdvd : cap ∣ (home + d') - (home + d) :=
      (Nat.modEq_iff_dvd' (by omega)).mp h
    have : (home + d') - (home + d) = d' - d := by omega
    rw [this] at hdvd
    have := Nat.eq_zero_of_dvd_of_lt hdvd
    omega
  · have hdvd : cap ∣ (home + d) - (home + d') :=
      (Nat.modEq_iff_dvd' (by omega)).mp h.symm
    have : (home + d) - (home + d') = d - d' := by omega
    rw [this] at hdvd
    have := Nat.eq_zero_of_dvd_of_lt hdvd
    omega

theorem get?_some_of_lt (es : List Entry) (i : Nat) (h : i < es.length) :
    ∃ e, es.get? i = some e := by
  cases hg : es.get? i with
  | none =>
    rw [List.get?_eq_none] at hg
    omega
  | some e => exact ⟨e, rfl⟩

theorem findEntryAux_finds (entries : List Entry) (cap key m : Nat)
    (hcap : cap = 2 ^ m) (hlen : entries.length = cap) :
    ∀ (fuel s d₀ : Nat), s < cap → d₀ < fuel →
      (∀ d, d < d₀ → ∀ e, entries.get? ((s + d) % cap) = some e →
        ¬(e.key = key ∨ e.key = 0)) →
      (∀ e, entries.get? ((s + d₀) % cap) = some e → (e.key = key ∨ e.key = 0)) →
      findEntryAux entries cap key s fuel = some ((s + d₀) % cap) := by
  have hpos : 0 < cap := by
    rw [hcap]
    positivity
  intro fuel
  induction fuel with
  | zero =>
    intro s d₀ _ hd
    omega
  | succ fuel ih =>
    intro s d₀ hs hfuel hmiss hstop
    obtain ⟨e, he⟩ := get?_some_of_lt entries s (by omega)
    unfold findEntryAux
    rw [he]
    dsimp only
    cases d₀ with
    | zero =>
      have hs0 : (s + 0) % cap = s := by
        rw [Nat.add_zero]
        exact Nat.mod_eq_of_lt hs
      have := hstop e (by rw [hs0]; exact he)
      rw [if_pos this, hs0]
    | succ d =>
      have hs0 : (s + 0) % cap = s := by
        rw [Nat.add_zero]
        exact Nat.mod_eq_of_lt hs
      have hm := hmiss 0 (by omega) e (by rw [hs0]; exact he)
      rw [if_neg hm]
      have hstep : (s + 1) &&& (cap - 1) = (s + 1) % cap := by
        rw [hcap]
        exact Nat.and_pow_two_sub_one_eq_mod _ _
      rw [hstep]
      have hshift : ∀ d' : Nat, ((s + 1) % cap + d') % cap = (s + (d' + 1)) % cap := by
        intro d'
        rw [Nat.mod_add_mod]
        congr 1
        omega
      have := ih ((s + 1) % cap) d (Nat.mod_lt _ hpos) (by omega)
        (fun d' hd' e' he' => hmiss (d' + 1) (by omega) e' (by rw [← hshift d']; exact he'))
        (fun e' he' => hstop e' (by rw [← hshift d]; exact he'))
      rw [this, hshift d]

theorem lt_of_get?_some (es : List Entry) (i : Nat) (e : Entry)
    (h : es.get? i = some e) : i < es.length := by
  by_contra hge
  rw [List.get?_eq_none.mpr (by omega)] at h
  cases h

theorem probeDist_add (cap home d : Nat) (hcap : 0 < cap) (hhome : home < cap)
    (hd : d < cap) : probeDist cap home ((home + d) % cap) = d := by
  have h1 := probe_cover cap home ((home + d) % cap) hcap hhome (Nat.mod_lt _ hcap)
  exact probe_inj cap home _ d (probeDist_lt cap home _ hcap) hd h1

theorem exists_empty_of_occ_lt (es : List Entry) (hocc : occCount es < es.length) :
    ∃ j ej, es.get? j = some ej ∧ ej.key = 0 := by
  by_contra hno
  push_neg at hno
  have hall : ∀ e ∈ es, (fun e => decide (e.key ≠ 0)) e = true := by
    intro e he
    obtain ⟨n, hn⟩ := List.get_of_mem he
    have hg : es.get? n.1 = some e := by rw [List.get?_eq_get n.2, hn]
    have := hno n.1 e hg
    simpa using this
  have : es.filter (fun e => decide (e.key ≠ 0)) = es := List.filter_eq_self.mpr hall
  unfold occCount at hocc
  rw [this] at hocc
  omega

/-- The probe slot at distance `d` from `key`'s home bucket is empty. -/
def emptyAt (es : List Entry) (cap key d : Nat) : Bool :=
  match es.get? ((key % cap + d) % cap) with
  | some e => decide (e.key = 0)
  | none => false

/-- Full characterization of `find_entry` under the table invariants:
it terminates at a bucket holding the key or the sentinel; every bucket
strictly before it on the probe path is occupied by some other key; a
present (non-sentinel) key is found at its unique bucket; an absent key
lands on an empty bucket. -/
theorem find_entry_full (cap : Nat) (es : List Entry) (key m : Nat)
    (hm : cap = 2 ^ m) (hlen : es.length = cap) (hocc : occCount es < cap)
    (hpp : PP cap es) (hnd : ND es) :
    ∃ idx e, find_entry cap es key = some idx ∧ es.get? idx = some e ∧
      idx < cap ∧ (e.key = key ∨ e.key = 0) ∧
      (∀ d, d < probeDist cap (key % cap) idx →
        ∃ ex, es.get? ((key % cap + d) % cap) = some ex ∧ ex.key ≠ 0 ∧
          ex.key ≠ key) ∧
      (∀ i ei, es.get? i = some ei → ei.key = key → key ≠ 0 → idx = i) ∧
      ((¬∃ i ei, es.get? i = some ei ∧ ei.key = key) → e.key = 0) := by
  have hpos : 0 < cap := by
    rw [hm]
    positivity
  have hhome : key % cap < cap := Nat.mod_lt _ hpos
  have hentry : find_entry cap es key = findEntryAux es cap key (key % cap) cap := by
    unfold find_entry
    rw [hm, Nat.and_pow_two_sub_one_eq_mod]
  by_cases hfound : key ≠ 0 ∧ ∃ i ei, es.get? i = some ei ∧ ei.key = key
  · obtain ⟨hkey0, i, ei, hi, hik⟩ := hfound
    have hilt : i < cap := by
      have := lt_of_get?_some es i ei hi
      omega
    have hihome : ei.key % cap = key % cap := by rw [hik]
    have hcover : (key % cap + probeDist cap (key % cap) i) % cap = i :=
      probe_cover cap _ i hpos hhome hilt
    have hmiss : ∀ d, d < probeDist cap (key % cap) i →
        ∃ ex, es.get? ((key % cap + d) % cap) = some ex ∧ ex.key ≠ 0 ∧
          ex.key ≠ key := by
      intro d hd
      obtain ⟨ex, hex, hex0⟩ := hpp i ei hi (by rw [hik]; exact hkey0) d
        (by rw [hihome]; exact hd)
      rw [hihome] at hex
      refine ⟨ex, hex, hex0, ?_⟩
      intro hexk
      have hpos_eq : (key % cap + d) % cap = i :=
        hnd _ _ _ _ hex hi hex0 (by rw [hexk, hik])
      have := probe_inj cap (key % cap) d (probeDist cap (key % cap) i)
        (lt_trans hd (probeDist_lt _ _ _ hpos)) (probeDist_lt _ _ _ hpos)
        (by rw [hcover]; exact hpos_eq)
      omega
    have hwalk := findEntryAux_finds es cap key m hm hlen cap (key % cap)
      (probeDist cap (key % cap) i) hhome (probeDist_lt _ _ _ hpos)
      (fun d hd e he => by
        obtain ⟨ex, hex, hex0, hexk⟩ := hmiss d hd
        rw [hex] at he
        injection he with he'
        subst he'
        push_neg
        exact ⟨hexk, hex0⟩)
      (fun e he => by
        rw [hcover] at he
        rw [hi] at he
        injection he with he'
        subst he'
        exact Or.inl hik)
    refine ⟨i, ei, ?_, hi, hilt, Or.inl hik, ?_, ?_, ?_⟩
    · rw [hentry, hwalk, hcover]
    · intro d hd
      exact hmiss d (by
        have : probeDist cap (key % cap) i = probeDist cap (key % cap) i := rfl
        exact hd)
    · intro i' ei' hi' hik' _
      exact (hnd i' i ei' ei hi' hi (by rw [hik']; exact hkey0)
        (by rw [hik', hik])).symm
    · intro habs
      exact absurd ⟨i, ei, hi, hik⟩ habs
  · -- key = 0 or absent: the walk stops at the first empty bucket
    obtain ⟨j, ej, hj, hj0⟩ := exists_empty_of_occ_lt es (by rw [hlen]; exact hocc)
    have hjlt : j < cap := by
      have := lt_of_get?_some es j ej hj
      omega
    have hexd : ∃ d, emptyAt es cap key d = true := by
      refine ⟨probeDist cap (key % cap) j, ?_⟩
      unfold emptyAt
      rw [probe_cover cap _ j hpos hhome hjlt, hj]
      simpa using hj0
    have hd0lt : Nat.find hexd < cap := by
      have := Nat.find_min' hexd (show emptyAt es cap key
          (probeDist cap (key % cap) j) = true by
        unfold emptyAt
        rw [probe_cover cap _ j hpos hhome hjlt, hj]
        simpa using hj0)
      have h2 := probeDist_lt cap (key % cap) j hpos
      omega
    obtain ⟨e0, he0⟩ := get?_some_of_lt es ((key % cap + Nat.find hexd) % cap)
      (by rw [hlen]; exact Nat.mod_lt _ hpos)
    have he00 : e0.key = 0 := by
      have := Nat.find_spec hexd
      unfold emptyAt at this
      rw [he0] at this
      simpa using this
    have hnokey : ∀ i ei, es.get? i = some ei → ei.key ≠ key ∨ ei.key = 0 := by
      intro i ei hi
      by_cases hk0 : key = 0
      · by_cases h : ei.key = 0
        · exact Or.inr h
        · exact Or.inl (by rw [hk0]; exact h)
      · have habs : ¬∃ i ei, es.get? i = some ei ∧ ei.key = key := by
          intro hex
          exact hfound ⟨hk0, hex⟩
        left
        intro hik
        exact habs ⟨i, ei, hi, hik⟩
    have hmiss : ∀ d, d < Nat.find hexd →
        ∃ ex, es.get? ((key % cap + d) % cap) = some ex ∧ ex.key ≠ 0 ∧
          ex.key ≠ key := by
      intro d hd
      obtain ⟨ex, hex⟩ := get?_some_of_lt es ((key % cap + d) % cap)
        (by rw [hlen]; exact Nat.mod_lt _ hpos)
      have hne0 : ex.key ≠ 0 := by
        intro h0
        have := Nat.find_min hexd hd
        unfold emptyAt at this
        rw [hex] at this
        simp [h0] at this
      rcases hnokey _ _ hex with h | h
      · exact ⟨ex, hex, hne0, h⟩
      · exact absurd h hne0
    have hwalk := findEntryAux_finds es cap key m hm hlen cap (key % cap)
      (Nat.find hexd) hhome (by omega)
      (fun d hd e he => by
        obtain ⟨ex, hex, hex0, hexk⟩ := hmiss d hd
        rw [hex] at he
        injection he with he'
        subst he'
        push_neg
        exact ⟨hexk, hex0⟩)
      (fun e he => by
        rw [he0] at he
        injection he with he'
        subst he'
        exact Or.inr he00)
    have hpd : probeDist cap (key % cap) ((key % cap + Nat.find hexd) % cap)
        = Nat.find hexd := probeDist_add cap (key % cap) (Nat.find hexd) hpos hhome hd0lt
    refine ⟨(key % cap + Nat.find hexd) % cap, e0, ?_, he0,
      Nat.mod_lt _ hpos, Or.inr he00, ?_, ?_, fun _ => he00⟩
    · rw [hentry, hwalk]
    · intro d hd
      rw [hpd] at hd
      exact hmiss d hd
    · intro i ei hi hik hk0
      rcases hnokey i ei hi with h | h
      · exact absurd hik h
      · rw [h] at hik
        exact absurd hik.symm hk0

/-- A key occupies a bucket of a raw entry array. -/
def hasKeyE (es : List Entry) (k : Nat) : Prop :=
  ∃ i e, es.get? i = some e ∧ e.key = k

theorem get?_set_self' (es : List Entry) (idx : Nat) (a : Entry)
    (h : idx < es.length) : (es.set idx a).get? idx = some a := by
  rw [List.get?_eq_getElem?]
  exact List.getElem?_set_eq_of_lt _ h

theorem get?_set_ne' (es : List Entry) (idx j : Nat) (a : Entry)
    (h : j ≠ idx) : (es.set idx a).get? j = es.get? j := by
  rw [List.get?_eq_getElem?, List.get?_eq_getElem?]
  exact List.getElem?_set_ne (fun he => h he.symm)

theorem occCount_set_empty (es : List Entry) :
    ∀ (idx : Nat) (a e0 : Entry), es.get? idx = some e0 → e0.key = 0 →
      a.key ≠ 0 → occCount (es.set idx a) = occCount es + 1 := by
  induction es with
  | nil =>
    intro idx a e0 h
    cases h
  | cons x rest ih =>
    intro idx a e0 h h0 ha
    cases idx with
    | zero =>
      simp only [List.get?] at h
      injection h with he
      subst he
      unfold occCount
      simp only [List.set]
      rw [List.filter_cons, List.filter_cons]
      simp [h0, ha]
    | succ n =>
      simp only [List.get?] at h
      unfold occCount
      simp only [List.set, List.filter_cons]
      have := ih n a e0 h h0 ha
      unfold occCount at this
      by_cases hx : x.key = 0
      · rw [if_neg (by simp [hx]), if_neg (by simp [hx])]
        exact this
      · rw [if_pos (by simp [hx]), if_pos (by simp [hx])]
        simp only [List.length_cons]
        omega

theorem keyAt_congr_of_set_same_key (es : List Entry) (idx : Nat) (a e0 : Entry)
    (h : es.get? idx = some e0) (hk : a.key = e0.key) :
    ∀ j, ((es.set idx a).get? j).map Entry.key = (es.get? j).map Entry.key := by
  intro j
  by_cases hj : j = idx
  · subst hj
    rw [get?_set_self' es j a (lt_of_get?_some es j e0 h), h]
    simp [hk]
  · rw [get?_set_ne' es idx j a hj]

theorem occCount_congr (es es' : List Entry)
    (hlen : es'.length = es.length)
    (hkey : ∀ j, (es'.get? j).map Entry.key = (es.get? j).map Entry.key) :
    occCount es' = occCount es := by
  unfold occCount
  induction es generalizing es' with
  | nil =>
    cases es'
    · rfl
    · cases hlen
  | cons x rest ih =>
    cases es' with
    | nil => cases hlen
    | cons y more =>
      have h0 := hkey 0
      simp only [List.get?, Option.map_some'] at h0
      injection h0 with h0
      simp only [List.filter_cons]
      rw [h0]
      have := ih more (by simpa using hlen) (fun j => by simpa using hkey (j + 1))
      by_cases hx : x.key = 0
      · rw [if_neg (by simp [hx]), if_neg (by simp [hx])]
        exact this
      · rw [if_pos (by simp [hx]), if_pos (by simp [hx])]
        simp only [List.length_cons]
        omega

theorem nd_congr (es es' : List Entry)
    (hkey : ∀ j, (es'.get? j).map Entry.key = (es.get? j).map Entry.key)
    (hnd : ND es) : ND es' := by
  intro i j ei ej hi hj hi0 hij
  have h1 := hkey i
  have h2 := hkey j
  rw [hi] at h1
  rw [hj] at h2
  cases hgi : es.get? i with
  | none =>
    rw [hgi] at h1
    cases h1
  | some fi =>
    cases hgj : es.get? j with
    | none =>
      rw [hgj] at h2
      cases h2
    | some fj =>
      rw [hgi] at h1
      rw [hgj] at h2
      simp only [Option.map_some', Option.some.injEq] at h1 h2
      exact hnd i j fi fj hgi hgj (by rw [← h1]; exact hi0) (by rw [← h1, ← h2]; exact hij)

theorem pp_congr (cap : Nat) (es es' : List Entry)
    (hkey : ∀ j, (es'.get? j).map Entry.key = (es.get? j).map Entry.key)
    (hpp : PP cap es) : PP cap es' := by
  intro i ei hi hi0 d hd
  have h1 := hkey i
  rw [hi] at h1
  cases hgi : es.get? i with
  | none =>
    rw [hgi] at h1
    cases h1
  | some fi =>
    rw [hgi] at h1
    simp only [Option.map_some', Option.some.injEq] at h1
    obtain ⟨ex, hex, hex0⟩ := hpp i fi hgi (by rw [← h1]; exact hi0) d
      (by rw [← h1]; exact hd)
    rw [← h1] at hex
    have h2 := hkey ((ei.key % cap + d) % cap)
    rw [hex] at h2
    cases hge : es'.get? ((ei.key % cap + d) % cap) with
    | none =>
      rw [hge] at h2
      cases h2
    | some gx =>
      rw [hge] at h2
      simp only [Option.map_some', Option.some.injEq] at h2
      exact ⟨gx, rfl, by rw [h2]; exact hex0⟩

theorem occupied_persist (es : List Entry) (idx : Nat) (a : Entry)
    (ha : a.key ≠ 0) (j : Nat)
    (h : ∃ ex, es.get? j = some ex ∧ ex.key ≠ 0) :
    ∃ ex, (es.set idx a).get? j = some ex ∧ ex.key ≠ 0 := by
  obtain ⟨ex, hex, hex0⟩ := h
  by_cases hj : j = idx
  · subst hj
    exact ⟨a, get?_set_self' es j a (lt_of_get?_some es j ex hex), ha⟩
  · exact ⟨ex, by rw [get?_set_ne' es idx j a hj]; exact hex, hex0⟩

/-- Writing a fresh key into the empty bucket that its probe found
preserves the probe-path invariant. -/
theorem pp_insert (cap : Nat) (es : List Entry) (a : Entry) (idx : Nat)
    (hlen : es.length = cap) (hpp : PP cap es) (hidx : idx < cap)
    (ha : a.key ≠ 0)
    (hpath : ∀ d, d < probeDist cap (a.key % cap) idx →
      ∃ ex, es.get? ((a.key % cap + d) % cap) = some ex ∧ ex.key ≠ 0) :
    PP cap (es.set idx a) := by
  intro i ei hi hi0 d hd
  by_cases hij : i = idx
  · subst hij
    rw [get?_set_self' es i a (by omega)] at hi
    injection hi with he
    subst he
    exact occupied_persist es i a ha _ (hpath d hd)
  · rw [get?_set_ne' es idx i a hij] at hi
    exact occupied_persist es idx a ha _ (hpp i ei hi hi0 d hd)

/-- Writing a fresh key into an empty bucket keeps occupied keys
pairwise distinct. -/
theorem nd_insert (es : List Entry) (a : Entry) (idx : Nat)
    (hnd : ND es) (hfresh : ∀ i ei, es.get? i = some ei → ei.key ≠ a.key) :
    ND (es.set idx a) := by
  intro i j ei ej hi hj hi0 hij
  by_cases hi' : i = idx
  · subst hi'
    by_cases hj' : j = i
    · omega
    · rw [get?_set_ne' es i j a hj'] at hj
      have hlt : i < es.length := by
        have := lt_of_get?_some _ _ _ hi
        simpa using this
      rw [get?_set_self' es i a hlt] at hi
      injection hi with he
      subst he
      exact absurd hij.symm (hfresh j ej hj)
  · rw [get?_set_ne' es idx i a hi'] at hi
    by_cases hj' : j = idx
    · subst hj'
      have hlt : j < es.length := by
        have := lt_of_get?_some _ _ _ hj
        simpa using this
      rw [get?_set_self' es j a hlt] at hj
      injection hj with he
      subst he
      exact absurd hij (hfresh i ei hi)
    · rw [get?_set_ne' es idx j a hj'] at hj
      exact hnd i j ei ej hi hj hi0 hij

theorem hasKeyE_set (es : List Entry) (a : Entry) (idx : Nat)
    (hidx : idx < es.length) (k : Nat) :
    hasKeyE (es.set idx a) k ↔
      (a.key = k ∨ ∃ j e, j ≠ idx ∧ es.get? j = some e ∧ e.key = k) := by
  constructor
  · rintro ⟨i, e, hi, hik⟩
    by_cases hij : i = idx
    · subst hij
      rw [get?_set_self' es i a hidx] at hi
      injection hi with he
      subst he
      exact Or.inl hik
    · rw [get?_set_ne' es idx i a hij] at hi
      exact Or.inr ⟨i, e, hij, hi, hik⟩
  · rintro (hak | ⟨j, e, hj, hje, hjk⟩)
    · exact ⟨idx, a, get?_set_self' es idx a hidx, hak⟩
    · exact ⟨j, e, by rw [get?_set_ne' es idx j a hj]; exact hje, hjk⟩

theorem nd_tail (x : Entry) (l : List Entry) (h : ND (x :: l)) : ND l := by
  intro i j ei ej hi hj hi0 hij
  have := h (i + 1) (j + 1) ei ej (by simpa using hi) (by simpa using hj) hi0 hij
  omega

theorem hasKeyE_cons (e : Entry) (rest : List Entry) (k : Nat) :
    hasKeyE (e :: rest) k ↔ (e.key = k ∨ hasKeyE rest k) := by
  constructor
  · rintro ⟨i, e', hi, hk⟩
    cases i with
    | zero =>
      simp only [List.get?] at hi
      injection hi with he
      subst he
      exact Or.inl hk
    | succ n =>
      simp only [List.get?] at hi
      exact Or.inr ⟨n, e', hi, hk⟩
  · rintro (hk | ⟨i, e', hi, hk⟩)
    · exact ⟨0, e, rfl, hk⟩
    · exact ⟨i + 1, e', by simpa using hi, hk⟩

theorem hasKeyE_congr (es es' : List Entry)
    (hkey : ∀ j, (es'.get? j).map Entry.key = (es.get? j).map Entry.key)
    (k : Nat) : hasKeyE es' k ↔ hasKeyE es k := by
  constructor <;> rintro ⟨i, e, hi, hk⟩
  · have h := hkey i
    rw [hi] at h
    cases hg : es.get? i with
    | none =>
      rw [hg] at h
      cases h
    | some f =>
      rw [hg] at h
      simp only [Option.map_some', Option.some.injEq] at h
      exact ⟨i, f, hg, by rw [← h]; exact hk⟩
  · have h := hkey i
    rw [hi] at h
    cases hg : es'.get? i with
    | none =>
      rw [hg] at h
      cases h
    | some f =>
      rw [hg] at h
      simp only [Option.map_some', Option.some.injEq] at h
      exact ⟨i, f, hg, by rw [h]; exact hk⟩

theorem occCount_cons (e : Entry) (l : List Entry) :
    occCount (e :: l) = (if e.key = 0 then 0 else 1) + occCount l := by
  unfold occCount
  rw [List.filter_cons]
  by_cases hx : e.key = 0
  · rw [if_neg (by simp [hx]), if_pos hx]
    simp
  · rw [if_pos (by simp [hx]), if_neg hx]
    simp [Nat.add_comm]

/-- The rehash loop of `adjust_capacity`: folding entries with pairwise
distinct occupied keys into an empty-enough array of power-of-two size
preserves length, the probe-path invariant and key distinctness, adds
exactly the occupied count, and carries over exactly the processed
keys. -/
theorem rehash_fold (cap' m : Nat) (hm : cap' = 2 ^ m) :
    ∀ (es acc : List Entry),
      acc.length = cap' →
      PP cap' acc →
      ND acc →
      occCount acc + occCount es < cap' →
      ND es →
      (∀ k, k ≠ 0 → hasKeyE acc k → ∀ i e, es.get? i = some e → e.key ≠ k) →
      (es.foldl (rehashStep cap') acc).length = cap' ∧
      PP cap' (es.foldl (rehashStep cap') acc) ∧
      ND (es.foldl (rehashStep cap') acc) ∧
      occCount (es.foldl (rehashStep cap') acc) = occCount acc + occCount es ∧
      (∀ k, k ≠ 0 → (hasKeyE (es.foldl (rehashStep cap') acc) k ↔
        (hasKeyE acc k ∨ hasKeyE es k))) := by
  intro es
  induction es with
  | nil =>
    intro acc hlen hpp hnd hocc hndes hdisj
    refine ⟨hlen, hpp, hnd, by simp [occCount], ?_⟩
    intro k hk
    simp only [List.foldl_nil]
    constructor
    · exact Or.inl
    · rintro (h | ⟨i, e, hi, _⟩)
      · exact h
      · cases hi
  | cons e rest ih =>
    intro acc hlen hpp hnd hocc hndes hdisj
    have hocc_lt : occCount acc < cap' := by
      have := occCount_cons e rest
      omega
    obtain ⟨idx, en, hfind, hget, hidx, hkor, hmiss, huniq, habsent⟩ :=
      find_entry_full cap' acc e.key m hm hlen hocc_lt hpp hnd
    have hstep : rehashStep cap' acc e = acc.set idx e := by
      unfold rehashStep
      rw [hfind]
    rw [List.foldl_cons, hstep]
    by_cases he0 : e.key = 0
    · -- sentinel entry: the probe stops on an empty bucket and the
      -- sentinel is written back, leaving every bucket key unchanged
      have hen0 : en.key = 0 := by
        rcases hkor with h | h
        · rw [h]; exact he0
        · exact h
      have hcongr := keyAt_congr_of_set_same_key acc idx e en hget
        (by rw [he0, hen0])
      have hlen' : (acc.set idx e).length = cap' := by
        rw [List.length_set]; exact hlen
      have hih := ih (acc.set idx e) hlen'
        (pp_congr cap' acc _ hcongr hpp)
        (nd_congr acc _ hcongr hnd)
        (by
          rw [occCount_congr acc _ (by rw [List.length_set]) hcongr]
          have := occCount_cons e rest
          rw [if_pos he0] at this
          omega)
        (nd_tail e rest hndes)
        (by
          intro k hk hkE i e' hi
          exact hdisj k hk ((hasKeyE_congr acc _ hcongr k).mp hkE)
            (i + 1) e' (by simpa using hi))
      obtain ⟨h1, h2, h3, h4, h5⟩ := hih
      refine ⟨h1, h2, h3, ?_, ?_⟩
      · rw [h4, occCount_congr acc _ (by rw [List.length_set]) hcongr,
          occCount_cons e rest, if_pos he0]
        omega
      · intro k hk
        rw [h5 k hk, hasKeyE_congr acc _ hcongr k, hasKeyE_cons]
        constructor
        · rintro (h | h)
          · exact Or.inl h
          · exact Or.inr (Or.inr h)
        · rintro (h | h | h)
          · exact Or.inl h
          · exact absurd (h ▸ he0) hk
          · exact Or.inr h
    · -- live entry: its key is absent from the accumulator, so the
      -- probe stops on an empty bucket and the entry is inserted fresh
      have habs : ¬hasKeyE acc e.key := by
        intro hkE
        exact hdisj e.key he0 hkE 0 e rfl rfl
      have hen0 : en.key = 0 := habsent (by exact habs)
      have hlen' : (acc.set idx e).length = cap' := by
        rw [List.length_set]; exact hlen
      have hfresh : ∀ i ei, acc.get? i = some ei → ei.key ≠ e.key := by
        intro i ei hi hik
        exact habs ⟨i, ei, hi, hik⟩
      have hpp' : PP cap' (acc.set idx e) :=
        pp_insert cap' acc e idx hlen hpp hidx he0
          (fun d hd => (hmiss d hd).imp fun ex ⟨hex, hx0, _⟩ => ⟨hex, hx0⟩)
      have hnd' : ND (acc.set idx e) := nd_insert acc e idx hnd hfresh
      have hocc' : occCount (acc.set idx e) = occCount acc + 1 :=
        occCount_set_empty acc idx e en hget hen0 he0
      have hkey' : ∀ k, k ≠ 0 →
          (hasKeyE (acc.set idx e) k ↔ (e.key = k ∨ hasKeyE acc k)) := by
        intro k hk
        rw [hasKeyE_set acc e idx (by omega) k]
        constructor
        · rintro (h | ⟨j, e', _, hje, hjk⟩)
          · exact Or.inl h
          · exact Or.inr ⟨j, e', hje, hjk⟩
        · rintro (h | ⟨j, e', hje, hjk⟩)
          · exact Or.inl h
          · refine Or.inr ⟨j, e', ?_, hje, hjk⟩
            intro hji
            subst hji
            rw [hje] at hget
            injection hget with he
            rw [← he] at hen0
            exact hk (hen0 ▸ hjk.symm ▸ hjk)
        -- (j = idx would make bucket j both empty and key k ≠ 0)
      have hih := ih (acc.set idx e) hlen' hpp' hnd'
        (by
          rw [hocc']
          have := occCount_cons e rest
          rw [if_neg he0] at this
          omega)
        (nd_tail e rest hndes)
        (by
          intro k hk hkE i e' hi hik
          rcases (hkey' k hk).mp hkE with hek | hkacc
          · have h0 : (e :: rest).get? 0 = some e := rfl
            have h1 : (e :: rest).get? (i + 1) = some e' := by simpa using hi
            have := hndes 0 (i + 1) e e' h0 h1 he0 (by rw [hek, ← hik])
            omega
          · exact hdisj k hk hkacc (i + 1) e' (by simpa using hi) hik)
      obtain ⟨h1, h2, h3, h4, h5⟩ := hih
      refine ⟨h1, h2, h3, ?_, ?_⟩
      · rw [h4, hocc', occCount_cons e rest, if_neg he0]
        omega
      · intro k hk
        rw [h5 k hk, hkey' k hk, hasKeyE_cons]
        tauto

theorem hasKey_def (t : Table) (k : Nat) : hasKey t k ↔ hasKeyE t.entries k :=
  Iff.rfl

theorem occCount_replicate_new (n : Nat) :
    occCount (List.replicate n Entry.new) = 0 := by
  unfold occCount
  rw [List.filter_eq_nil.mpr]
  · rfl
  · intro a ha
    rw [List.eq_of_mem_replicate ha]
    simp [Entry.new]

theorem replicate_new_key (n j : Nat) (e : Entry)
    (h : (List.replicate n Entry.new).get? j = some e) : e.key = 0 := by
  have hm : e ∈ List.replicate n Entry.new := List.get?_mem h
  rw [List.eq_of_mem_replicate hm]
  rfl

/-- `adjust_capacity` from an invariant-satisfying table doubles the
capacity, keeps the count, preserves the invariant and stores exactly
the same keys. -/
theorem adjust_capacity_spec (t : Table) (hinv : Inv t) :
    Inv t.adjust_capacity ∧
    t.adjust_capacity.capacity = 2 * t.capacity ∧
    t.adjust_capacity.count = t.count ∧
    (∀ k, k ≠ 0 → (hasKey t.adjust_capacity k ↔ hasKey t k)) := by
  obtain ⟨m, hm3, hm⟩ := hinv.cap_pow
  have hc8 : 8 ≤ t.capacity := by
    rw [hm]
    calc 8 = 2 ^ 3 := by norm_num
    _ ≤ 2 ^ m := Nat.pow_le_pow_right (by norm_num) hm3
  have hcond : ¬t.capacity < 8 := by omega
  set C := t.capacity * 2 with hC
  have hmC : C = 2 ^ (m + 1) := by rw [hC, hm]; ring
  have hCpos : 0 < C := by omega
  have hinit_len : (List.replicate C Entry.new).length = C :=
    List.length_replicate C Entry.new
  have hinit_pp : PP C (List.replicate C Entry.new) := by
    intro i ei hi hi0
    exact absurd (replicate_new_key C i ei hi) hi0
  have hinit_nd : ND (List.replicate C Entry.new) := by
    intro i j ei ej hi _ hi0
    exact absurd (replicate_new_key C i ei hi) hi0
  have hocc : occCount (List.replicate C Entry.new) + occCount t.entries < C := by
    rw [occCount_replicate_new]
    have h1 : occCount t.entries = t.count := hinv.count_eq.symm
    have h2 : t.count ≤ t.max_capacity := hinv.count_le
    have h3 : t.max_capacity = 3 * t.capacity / 4 := hinv.max_eq
    omega
  have hfold := rehash_fold C (m + 1) hmC t.entries (List.replicate C Entry.new)
    hinit_len hinit_pp hinit_nd hocc hinv.keys_nodup
    (by
      intro k hk hkE
      obtain ⟨i, e, hi, hik⟩ := hkE
      exact absurd (replicate_new_key C i e hi) (by rw [hik]; exact hk))
  obtain ⟨h1, h2, h3, h4, h5⟩ := hfold
  have hfields : t.adjust_capacity.capacity = C ∧
      t.adjust_capacity.max_capacity = maxLoadOf C ∧
      t.adjust_capacity.count = t.count ∧
      t.adjust_capacity.entries =
        t.entries.foldl (rehashStep C) (List.replicate C Entry.new) := by
    unfold Table.adjust_capacity
    rw [if_neg hcond]
    exact ⟨rfl, rfl, rfl, rfl⟩
  obtain ⟨hf1, hf2, hf3, hf4⟩ := hfields
  refine ⟨⟨⟨m + 1, by omega, by rw [hf1, hmC]⟩, ?_, ?_, ?_, ?_, ?_, ?_⟩,
    by rw [hf1]; omega, hf3, ?_⟩
  · rw [hf4, hf1]; exact h1
  · rw [hf2, hf1]; rfl
  · rw [hf3, hf4, h4, occCount_replicate_new, hinv.count_eq]; omega
  · rw [hf3, hf2]
    have h2' : t.count ≤ t.max_capacity := hinv.count_le
    have h3' : t.max_capacity = 3 * t.capacity / 4 := hinv.max_eq
    unfold maxLoadOf
    omega
  · rw [hf4]; exact h3
  · rw [hf4, hf1]; exact h2
  · intro k hk
    rw [hasKey_def, hasKey_def, hf4, h5 k hk]
    constructor
    · rintro (h | h)
      · obtain ⟨i, e, hi, hik⟩ := h
        exact absurd (replicate_new_key C i e hi) (by rw [hik]; exact hk)
      · exact h
    · exact Or.inr

/-- `Table::set` under the invariant: it succeeds, preserves the
invariant, returns `true` exactly for a previously absent key, grows
(doubling the capacity) exactly when `count + 1 > max_capacity`, and
stores exactly the old keys plus the new one. -/
theorem set_full (t : Table) (hinv : Inv t) (k : Nat) (hk : k ≠ 0)
    (v : ValueModel.Value) :
    ∃ b t', t.set k v = some (b, t') ∧ Inv t' ∧
      (b = true ↔ ¬hasKey t k) ∧
      t'.capacity =
        (if t.count + 1 > t.max_capacity then 2 * t.capacity else t.capacity) ∧
      t'.count = (if b then t.count + 1 else t.count) ∧
      (∀ k', k' ≠ 0 → (hasKey t' k' ↔ (k' = k ∨ hasKey t k'))) := by
  have hbase : ∀ t1 : Table, Inv t1 → t1.count + 1 ≤ t1.max_capacity →
      ∃ b t', (match find_entry t1.capacity t1.entries k with
          | none => none
          | some index =>
            match t1.entries.get? index with
            | none => none
            | some entry =>
              some ((decide (entry.key = 0)),
                { t1 with
                  count := if entry.key = 0 then t1.count + 1 else t1.count
                  entries := t1.entries.set index ⟨k, v⟩ })) = some (b, t') ∧
        Inv t' ∧ (b = true ↔ ¬hasKey t1 k) ∧
        t'.capacity = t1.capacity ∧
        t'.count = (if b then t1.count + 1 else t1.count) ∧
        (∀ k', k' ≠ 0 → (hasKey t' k' ↔ (k' = k ∨ hasKey t1 k'))) := by
    intro t1 hinv1 hroom
    obtain ⟨m, hm3, hm⟩ := hinv1.cap_pow
    have hcpos : 0 < t1.capacity := by rw [hm]; positivity
    have hocc : occCount t1.entries < t1.capacity := by
      have h1 := hinv1.count_eq
      have h2 := hinv1.count_le
      have h3 := hinv1.max_eq
      omega
    obtain ⟨idx, en, hfind, hget, hidx, hkor, hmiss, huniq, habsent⟩ :=
      find_entry_full t1.capacity t1.entries k m hm hinv1.len_eq hocc
        hinv1.probe_path hinv1.keys_nodup
    rw [hfind]
    dsimp only
    rw [hget]
    dsimp only
    refine ⟨decide (en.key = 0), _, rfl, ?_⟩
    by_cases hen0 : en.key = 0
    · -- empty bucket: the key was absent, insert fresh
      have habs : ¬hasKey t1 k := by
        rintro ⟨i, ei, hi, hik⟩
        have := huniq i ei hi hik hk
        rw [← this] at hi
        rw [hget] at hi
        injection hi with he
        rw [he] at hen0
        exact hk (hik ▸ hen0 ▸ rfl)
      have hfresh : ∀ i ei, t1.entries.get? i = some ei → ei.key ≠ k := by
        intro i ei hi hik
        exact habs ⟨i, ei, hi, hik⟩
      have hpp' : PP t1.capacity (t1.entries.set idx ⟨k, v⟩) :=
        pp_insert t1.capacity t1.entries ⟨k, v⟩ idx hinv1.len_eq
          hinv1.probe_path hidx hk
          (fun d hd => (hmiss d hd).imp fun ex ⟨hex, hx0, _⟩ => ⟨hex, hx0⟩)
      have hnd' : ND (t1.entries.set idx ⟨k, v⟩) :=
        nd_insert t1.entries ⟨k, v⟩ idx hinv1.keys_nodup hfresh
      have hocc' : occCount (t1.entries.set idx ⟨k, v⟩) = occCount t1.entries + 1 :=
        occCount_set_empty t1.entries idx ⟨k, v⟩ en hget hen0 hk
      refine ⟨⟨⟨m, hm3, hm⟩, by simpa using hinv1.len_eq, hinv1.max_eq, ?_, ?_,
        hnd', hpp'⟩, ?_, rfl, ?_, ?_⟩
      · rw [if_pos hen0]
        simp only
        rw [hocc', hinv1.count_eq]
      · rw [if_pos hen0]
        simp only
        omega
      · simp [hen0, habs]
      · simp [hen0]
      · intro k' hk'
        rw [hasKey_def, hasKey_def]
        simp only
        rw [hasKeyE_set t1.entries ⟨k, v⟩ idx (by rw [hinv1.len_eq]; exact hidx) k']
        constructor
        · rintro (h | ⟨j, e', _, hje, hjk⟩)
          · exact Or.inl h.symm
          · exact Or.inr ⟨j, e', hje, hjk⟩
        · rintro (h | ⟨j, e', hje, hjk⟩)
          · exact Or.inl h.symm
          · refine Or.inr ⟨j, e', ?_, hje, hjk⟩
            intro hji
            subst hji
            rw [hje] at hget
            injection hget with he
            rw [← he] at hen0
            exact hk' (hen0 ▸ hjk.symm ▸ hjk)
    · -- occupied bucket: the key is present, overwrite the value
      have henk : en.key = k := by
        rcases hkor with h | h
        · exact h
        · exact absurd h hen0
      have hpresent : hasKey t1 k := ⟨idx, en, hget, henk⟩
      have hcongr := keyAt_congr_of_set_same_key t1.entries idx ⟨k, v⟩ en hget
        (by simpa using henk.symm)
      refine ⟨⟨⟨m, hm3, hm⟩, by simpa using hinv1.len_eq, hinv1.max_eq, ?_, ?_,
        nd_congr t1.entries _ hcongr hinv1.keys_nodup,
        pp_congr t1.capacity t1.entries _ hcongr hinv1.probe_path⟩,
        ?_, rfl, ?_, ?_⟩
      · rw [if_neg hen0]
        simp only
        rw [occCount_congr t1.entries _ (by simp) hcongr, hinv1.count_eq]
      · rw [if_neg hen0]
        simp only
        exact hinv1.count_le
      · simp [hen0, hpresent]
      · simp [hen0]
      · intro k' hk'
        rw [hasKey_def, hasKey_def]
        simp only
        rw [hasKeyE_congr t1.entries _ hcongr k']
        constructor
        · exact Or.inr
        · rintro (h | h)
          · subst h
            exact hpresent
          · exact h
  by_cases hg : t.count + 1 > t.max_capacity
  · obtain ⟨hinvA, hcapA, hcntA, hkeyA⟩ := adjust_capacity_spec t hinv
    have hroom : t.adjust_capacity.count + 1 ≤ t.adjust_capacity.max_capacity := by
      obtain ⟨m, hm3, hm⟩ := hinv.cap_pow
      have hc8 : 8 ≤ t.capacity := by
        rw [hm]
        calc 8 = 2 ^ 3 := by norm_num
        _ ≤ 2 ^ m := Nat.pow_le_pow_right (by norm_num) hm3
      have h1 := hinv.count_le
      have h2 := hinv.max_eq
      have h3 := hinvA.max_eq
      rw [hcntA, h3, hcapA]
      omega
    obtain ⟨b, t', heq, hinv', hb, hcap', hcnt', hkey'⟩ :=
      hbase t.adjust_capacity hinvA hroom
    refine ⟨b, t', ?_, hinv', ?_, ?_, ?_, ?_⟩
    · unfold Table.set
      rw [if_pos hg]
      exact heq
    · rw [hb, hasKey_def, hasKey_def, ← hasKey_def, ← hasKey_def, hkeyA k hk]
    · rw [hcap', hcapA, if_pos hg]
    · rw [hcnt', hcntA]
    · intro k' hk'
      rw [hkey' k' hk', hkeyA k' hk']
  · obtain ⟨b, t', heq, hinv', hb, hcap', hcnt', hkey'⟩ :=
      hbase t hinv (by omega)
    refine ⟨b, t', ?_, hinv', hb, ?_, ?_, hkey'⟩
    · unfold Table.set
      rw [if_neg hg]
      exact heq
    · rw [hcap', if_neg hg]
    · rw [hcnt']

theorem inv_new : Inv Table.new := by
  refine ⟨⟨3, le_refl 3, rfl⟩, by simp [Table.new], rfl, ?_, ?_, ?_, ?_⟩
  · show (0 : Nat) = occCount (List.replicate 8 Entry.new)
    rw [occCount_replicate_new]
  · show (0 : Nat) ≤ maxLoadOf 8
    unfold maxLoadOf
    omega
  · intro i j ei ej hi _ hi0
    exact absurd (replicate_new_key 8 i ei hi) hi0
  · intro i ei hi hi0
    exact absurd (replicate_new_key 8 i ei hi) hi0

/-- Every reachable table satisfies the invariant. -/
theorem reach_inv (t : Table) (h : Reach t) : Inv t := by
  induction h with
  | new => exact inv_new
  | set t t' k v b _ hk hset ih =>
    obtain ⟨b0, t0, hset0, hinv0, _, _, _, _⟩ := set_full t ih k hk v
    rw [hset] at hset0
    injection hset0 with hpair
    injection hpair with hb ht
    rw [ht]
    exact hinv0

/-- `Table::get` under the invariant: it succeeds, and a returned value
always comes from a bucket actually keyed by the queried key — never
from a `Symbol(0)` sentinel bucket. -/
theorem get_spec (t : Table) (hinv : Inv t) (k : Nat) (hk : k ≠ 0) :
    ∃ r, t.get k = some r ∧
      ∀ v, r = some v → ∃ i, t.entries.get? i = some ⟨k, v⟩ := by
  unfold Table.get
  by_cases hc : t.count = 0
  · rw [if_pos hc]
    exact ⟨none, rfl, fun v hv => by cases hv⟩
  · rw [if_neg hc]
    obtain ⟨m, hm3, hm⟩ := hinv.cap_pow
    have hocc : occCount t.entries < t.capacity := by
      have h1 := hinv.count_eq
      have h2 := hinv.count_le
      have h3 := hinv.max_eq
      have hcpos : 0 < t.capacity := by rw [hm]; positivity
      omega
    obtain ⟨idx, en, hfind, hget, hidx, hkor, hmiss, huniq, habsent⟩ :=
      find_entry_full t.capacity t.entries k m hm hinv.len_eq hocc
        hinv.probe_path hinv.keys_nodup
    rw [hfind]
    dsimp only
    rw [hget]
    dsimp only
    refine ⟨if en.key = 0 then none else some en.value, rfl, ?_⟩
    intro v hv
    by_cases hen0 : en.key = 0
    · rw [if_pos hen0] at hv
      cases hv
    · rw [if_neg hen0] at hv
      injection hv with hv
      have henk : en.key = k := by
        rcases hkor with h | h
        · exact h
        · exact absurd h hen0
      refine ⟨idx, ?_⟩
      rw [hget]
      cases en with
      | mk ek ev =>
        dsimp only at henk hv
        rw [henk, hv]

/-- **C7**: every table reachable from `Table::new` by `set`/`get`
calls with non-sentinel keys has a power-of-two capacity starting at 8;
`set` doubles the capacity (rehashing) exactly when the insertion would
make `count + 1` exceed `capacity * 0.75`, so `count ≤ capacity * 0.75`
always holds; `set` returns `true` exactly when the key was not
previously present; and no `get` ever returns the contents of a bucket
whose key is `Symbol(0)` — a returned value always comes from a bucket
keyed by the queried key. -/
theorem c7_table_invariants (t : Table) (hre : Reach t) :
    Table.new.capacity = 8 ∧
    (∃ m, 3 ≤ m ∧ t.capacity = 2 ^ m) ∧
    t.count ≤ 3 * t.capacity / 4 ∧
    (∀ k v, k ≠ 0 → ∃ b t', t.set k v = some (b, t') ∧
      (b = true ↔ ¬hasKey t k) ∧
      t'.capacity =
        (if t.count + 1 > 3 * t.capacity / 4 then 2 * t.capacity
         else t.capacity)) ∧
    (∀ k, k ≠ 0 → ∃ r, t.get k = some r ∧
      ∀ v, r = some v → ∃ i, t.entries.get? i = some ⟨k, v⟩) := by
  have hinv := reach_inv t hre
  refine ⟨rfl, hinv.cap_pow, ?_, ?_, ?_⟩
  · have h1 := hinv.count_le
    have h2 := hinv.max_eq
    omega
  · intro k v hk
    obtain ⟨b, t', heq, _, hb, hcap, _, _⟩ := set_full t hinv k hk v
    refine ⟨b, t', heq, hb, ?_⟩
    rw [hcap, hinv.max_eq]
  · intro k hk
    exact get_spec t hinv k hk

/-- Witness for C7 at the freshly created table. -/
theorem c7_table_invariants_witness :
    Table.new.capacity = 8 ∧
    (∃ m, 3 ≤ m ∧ Table.new.capacity = 2 ^ m) ∧
    Table.new.count ≤ 3 * Table.new.capacity / 4 ∧
    (∀ k v, k ≠ 0 → ∃ b t', Table.new.set k v = some (b, t') ∧
      (b = true ↔ ¬hasKey Table.new k) ∧
      t'.capacity =
        (if Table.new.count + 1 > 3 * Table.new.capacity / 4 then
          2 * Table.new.capacity
         else Table.new.capacity)) ∧
    (∀ k, k ≠ 0 → ∃ r, Table.new.get k = some r ∧
      ∀ v, r = some v → ∃ i, Table.new.entries.get? i = some ⟨k, v⟩) :=
  c7_table_invariants Table.new Reach.new

end TableModel

namespace GcModel

/-- The largest power of two that is at most `max n 1`, by structural
recursion on a fuel bounded by `n` itself. -/
def pow2floorAux : Nat → Nat → Nat
  | 0, _ => 1
  | fuel + 1, n => if n ≤ 1 then 1 else 2 * pow2floorAux fuel (n / 2)

/-- The largest power of two `≤ max n 1`. -/
def pow2floor (n : Nat) : Nat := pow2floorAux n n

/-- Round a natural number to the value of its Rust `as f32` cast:
round to nearest with ties to even at 24 significand bits (exact for
`n ≤ 2^24`).  For larger `n` the representable neighbours are the
multiples of `2^(k-23)` where `2^k ≤ n < 2^(k+1)`. -/
def roundF32 (n : Nat) : Nat :=
  if n ≤ 2 ^ 24 then n
  else
    (fun unit =>
      (fun q r =>
        if 2 * r < unit then q * unit
        else if unit < 2 * r then (q + 1) * unit
        else if q % 2 = 0 then q * unit else (q + 1) * unit)
      (n / unit) (n % unit))
    (pow2floor n / 2 ^ 23)

/-- The observable state of `ManagedHeap` in `gc.rs`: the heap's byte
count and the collection threshold cell (initially `1024 * 1024`). -/
structure ManagedHeap where
  bytesUsed : Nat
  threshold : Nat
deriving DecidableEq, Repr

/-- `ManagedHeap::new` has `threshold: Cell::new(1024 * 1024)`. -/
def ManagedHeap.new (bytes : Nat) : ManagedHeap := ⟨bytes, 1024 * 1024⟩

/-- `ManagedHeap::collect` from `gc.rs`: collect only when
`bytes_used() > threshold`, then set the threshold to
`(bytes_used() as f32 * THRESHOLD_ADJUST) as usize + 100` with
`THRESHOLD_ADJUST = 2.0` and `bytes_used()` re-read after the sweep.
The mark/sweep itself lives in `heap.rs`, which is not under `src/`;
its effect on the byte count is abstracted as `sweep` (post-collection
bytes as a function of pre-collection bytes).  The `as f32` cast rounds
to the nearest representable value (`roundF32`); multiplying an `f32`
by `2.0` is exact, and the `as usize` cast truncates the (integral)
result, so the stored threshold is `2 * roundF32(bytes) + 100`.
Returns the heap state and whether a collection ran. -/
def ManagedHeap.collect (sweep : Nat → Nat) (h : ManagedHeap) :
    ManagedHeap × Bool :=
  if h.threshold < h.bytesUsed then
    ({ bytesUsed := sweep h.bytesUsed,
       threshold := 2 * roundF32 (sweep h.bytesUsed) + 100 }, true)
  else (h, false)

theorem roundF32_eq_of_le (n : Nat) (h : n ≤ 2 ^ 24) : roundF32 n = n := by
  unfold roundF32
  rw [if_pos h]

/-- Counterexample for **C8** as stated: when a collection leaves
`bytes_used = 2^24 + 1`, the `f32` arithmetic stores threshold
`2 * 2^24 + 100 = 33554532`, not `(2^24 + 1) * 2 + 100 = 33554534`. -/
theorem c8_counterexample :
    ((ManagedHeap.mk 1 0).collect fun _ => 16777217).1.threshold = 33554532 ∧
    (33554532 : Nat) ≠ 2 * 16777217 + 100 := by
  constructor
  · rfl
  · decide

/-- **C8 (amended).** `collect` runs a collection if and only if
`bytes_used` exceeds the threshold; when it does not, the heap state is
returned unchanged with no collection.  After a collection the
threshold is `2 * roundF32(post-collection bytes_used) + 100`, which
equals `bytes_used × 2 + 100` whenever the post-collection
`bytes_used ≤ 2^24`. -/
theorem c8_collect_threshold (sweep : Nat → Nat) (h : ManagedHeap) :
    (h.threshold < h.bytesUsed →
      (h.collect sweep).2 = true ∧
      (h.collect sweep).1.bytesUsed = sweep h.bytesUsed ∧
      (h.collect sweep).1.threshold = 2 * roundF32 (sweep h.bytesUsed) + 100) ∧
    (¬h.threshold < h.bytesUsed → h.collect sweep = (h, false)) ∧
    (h.threshold < h.bytesUsed → sweep h.bytesUsed ≤ 2 ^ 24 →
      (h.collect sweep).1.threshold = 2 * sweep h.bytesUsed + 100) := by
  refine ⟨?_, ?_, ?_⟩
  · intro hlt
    simp [ManagedHeap.collect, hlt]
  · intro hge
    simp [ManagedHeap.collect, hge]
  · intro hlt hle
    simp [ManagedHeap.collect, hlt, roundF32_eq_of_le _ hle]

/-- Witness for **C8 (amended)**: a heap with 200 used bytes over a
threshold of 100 collects down to 50 bytes and stores threshold
`2 * 50 + 100 = 200`; a heap at its threshold does not collect. -/
theorem c8_collect_threshold_witness :
    ((100 : Nat) < 200 ∧
      ((ManagedHeap.mk 200 100).collect fun _ => 50).1.threshold = 2 * 50 + 100) ∧
    (¬(100 : Nat) < 100 ∧ (ManagedHeap.mk 100 100).collect (fun _ => 50) = (ManagedHeap.mk 100 100, false)) := by
  constructor
  · exact ⟨by decide,
      (c8_collect_threshold (fun _ => 50) (ManagedHeap.mk 200 100)).2.2
        (by decide) (by decide)⟩
  · exact ⟨by decide,
      (c8_collect_threshold (fun _ => 50) (ManagedHeap.mk 100 100)).2.1
        (by decide)⟩

end GcModel

namespace ReplModel

/-- Drop leading and trailing whitespace from a character list. -/
def trimChars (cs : List Char) : List Char :=
  ((cs.dropWhile Char.isWhitespace).reverse.dropWhile Char.isWhitespace).reverse

/-- Rust's `str::trim` (Lean's own `String.trim` is not
kernel-reducible, so the model trims the character list directly). -/
def strTrim (s : String) : String := String.mk (trimChars s.data)

/-- `run_repl` from `src/main.rs`, over the list of lines the user will
type.  The VM is abstracted as a state `σ` with
`interpret : σ → String → σ × Option ε` (`Vm::interpret` returns
`Result<(), VmError>`; `some e` is the `Err` case).  Mirrors the Rust
loop: read a line; if its trim is empty, break with success; otherwise
`vm.interpret(line.trim().to_owned())?` — an `Err` propagates out of
`run_repl` immediately.  Returns the final VM state, the propagated
error if any, and the trimmed lines that were interpreted, in order.
(When the input is exhausted the Rust loop would block on `stdin`;
the model stops there.) -/
def run_repl {σ ε : Type} (interpret : σ → String → σ × Option ε) :
    σ → List String → σ × Option ε × List String
  | vm, [] => (vm, none, [])
  | vm, line :: rest =>
    if (strTrim line).isEmpty then (vm, none, [])
    else
      match interpret vm (strTrim line) with
      | (vm1, some e) => (vm1, some e, [strTrim line])
      | (vm1, none) =>
        ((run_repl interpret vm1 rest).1, (run_repl interpret vm1 rest).2.1,
          strTrim line :: (run_repl interpret vm1 rest).2.2)

/-- Counterexample for **C9** as stated: with an `interpret` that
fails on every line, the session dies on the first line — the second
line is never read or interpreted, and the error escapes `run_repl`
(in `main.rs` the `?` aborts the loop), contradicting "the REPL loop
continues to prompt for and interpret further lines after the
error". -/
theorem c9_counterexample :
    run_repl (fun (s : Nat) (_ : String) => (s + 1, some ())) 0 ["a", "b"]
      = (1, some (), ["a"]) ∧
    "b" ∉ (run_repl (fun (s : Nat) (_ : String) => (s + 1, some ())) 0
      ["a", "b"]).2.2 := by
  constructor
  · rfl
  · decide

/-- **C9 (amended).**  In the REPL an empty (after trimming) input line
exits the session with success and interprets nothing further; a line
whose interpretation fails terminates the loop at once — the error
propagates out of `run_repl` and none of the remaining lines is read
or interpreted; a successfully interpreted line leaves the loop running
on the remaining input with the updated VM state. -/
theorem c9_repl_loop {σ ε : Type} (interpret : σ → String → σ × Option ε)
    (vm : σ) (line : String) (rest : List String) :
    ((strTrim line).isEmpty = true →
      run_repl interpret vm (line :: rest) = (vm, none, [])) ∧
    (∀ vm1 e, (strTrim line).isEmpty = false → interpret vm (strTrim line) = (vm1, some e) →
      run_repl interpret vm (line :: rest) = (vm1, some e, [strTrim line])) ∧
    (∀ vm1, (strTrim line).isEmpty = false → interpret vm (strTrim line) = (vm1, none) →
      run_repl interpret vm (line :: rest) =
        ((run_repl interpret vm1 rest).1, (run_repl interpret vm1 rest).2.1,
          strTrim line :: (run_repl interpret vm1 rest).2.2)) := by
  refine ⟨?_, ?_, ?_⟩
  · intro hempty
    simp [run_repl, hempty]
  · intro vm1 e hne hint
    simp [run_repl, hne, hint]
  · intro vm1 hne hint
    simp [run_repl, hne, hint]

/-- Witness for **C9 (amended)**: a concrete session over a counter VM
in which `"ok"` interprets successfully, `"boom"` fails and stops the
loop, and `""` exits. -/
theorem c9_repl_loop_witness :
    ((strTrim "").isEmpty = true ∧
      run_repl (fun (s : Nat) (l : String) =>
        (s + 1, if l = "boom" then some () else none)) 7 ["", "x"] = (7, none, [])) ∧
    ((strTrim "boom").isEmpty = false ∧
      run_repl (fun (s : Nat) (l : String) =>
        (s + 1, if l = "boom" then some () else none)) 7 ["boom", "x"]
        = (8, some (), ["boom"])) := by
  constructor
  · exact ⟨by decide,
      (c9_repl_loop (fun (s : Nat) (l : String) =>
        (s + 1, if l = "boom" then some () else none)) 7 "" ["x"]).1 (by decide)⟩
  · refine ⟨by decide, ?_⟩
    exact (c9_repl_loop (fun (s : Nat) (l : String) =>
      (s + 1, if l = "boom" then some () else none)) 7 "boom" ["x"]).2.1 8 ()
      (by decide) (by decide)

end ReplModel
